import Mathlib

/-! Verification model of the MINT format codec
(`packages/mint/src/index.ts` of q1k-oss/mint).

Strings are modelled as `List Char`.  JavaScript numbers (IEEE float64) are
modelled by their integer subset (`Int`); this covers every numeral the
encoder can emit for an integer-valued input, and every theorem below that
touches the numeric parser restricts itself to integer-shaped numerals.
JavaScript's `String.prototype.trim` is modelled on the ASCII whitespace
characters, `toLowerCase` on ASCII letters. -/

namespace Mint

/-- Strings are lists of characters. -/
abbrev Str := List Char

/-- The ASCII part of JavaScript's `\s` (used by `trim` / `trimStart`). -/
def isJsWhitespace (c : Char) : Bool :=
  c = ' ' || c = '\t' || c = '\n' || c = '\r' || c = '\x0b' || c = '\x0c'

/-- Model of JavaScript `String.prototype.trimStart`. -/
def jsTrimStart (s : Str) : Str := s.dropWhile isJsWhitespace

/-- Model of JavaScript `String.prototype.trimEnd`. -/
def jsTrimEnd (s : Str) : Str := (s.reverse.dropWhile isJsWhitespace).reverse

/-- Model of JavaScript `String.prototype.trim`. -/
def jsTrim (s : Str) : Str := jsTrimEnd (jsTrimStart s)

/-- `s.startsWith(c)` for a single character. -/
def startsWithChar (c : Char) (s : Str) : Bool :=
  match s with
  | [] => false
  | d :: _ => d = c

/-- `s.endsWith(c)` for a single character. -/
def endsWithChar (c : Char) (s : Str) : Bool :=
  match s.getLast? with
  | none => false
  | some d => d = c

/-- `s.includes(pat)`: substring occurrence test. -/
def containsSeq (pat : Str) : Str → Bool
  | [] => pat.isEmpty
  | c :: rest => pat.isPrefixOf (c :: rest) || containsSeq pat rest

/-- The recursion worker of `splitOn`, driven by a character-count fuel so
that the definition is structural (each step consumes at least one
character, so the fuel supplied by `splitOn` never runs out). -/
def splitOnAux (sep : Str) : Nat → Str → List Str
  | _, [] => [[]]
  | 0, s => [s]
  | fuel + 1, c :: rest =>
    if sep ≠ [] ∧ sep.isPrefixOf (c :: rest) then
      [] :: splitOnAux sep fuel ((c :: rest).drop sep.length)
    else
      match splitOnAux sep fuel rest with
      | [] => [[c]]
      | h :: t => (c :: h) :: t

/-- JavaScript `String.prototype.split` with a (non-empty) string separator:
splits on every non-overlapping, left-to-right occurrence. -/
def splitOn (sep : Str) (s : Str) : List Str := splitOnAux sep s.length s

/-- The recursion worker of `replaceSub`, fuel-driven for the same reason
as `splitOnAux`. -/
def replaceSubAux (pat rep : Str) : Nat → Str → Str
  | _, [] => []
  | 0, s => s
  | fuel + 1, c :: rest =>
    if pat ≠ [] ∧ pat.isPrefixOf (c :: rest) then
      rep ++ replaceSubAux pat rep fuel ((c :: rest).drop pat.length)
    else
      c :: replaceSubAux pat rep fuel rest

/-- JavaScript `String.prototype.replace` with a global literal pattern:
replaces non-overlapping occurrences left to right. -/
def replaceSub (pat rep : Str) (s : Str) : Str :=
  replaceSubAux pat rep s.length s

/-- ASCII model of JavaScript `toLowerCase`. -/
def toLowerStr (s : Str) : Str := s.map Char.toLower

/-! ## The value model

`JsonValue` of the source: null, boolean, number, string, array, object.
Objects are insertion-ordered key/value lists (JavaScript object semantics;
assignment to an existing key updates in place, a fresh key appends). -/

/-- The JSON-compatible value model of the source (`JsonValue`). -/
inductive JVal where
  | jnull
  | jbool (b : Bool)
  | jnum (n : Int)
  | jstr (s : Str)
  | jarr (items : List JVal)
  | jobj (fields : List (Str × JVal))

/-- JavaScript object property assignment `obj[k] = v`: update the first
occurrence of `k` in place, else append. -/
def jsObjSet : List (Str × JVal) → Str → JVal → List (Str × JVal)
  | [], k, v => [(k, v)]
  | (k', v') :: rest, k, v =>
    if k' = k then (k', v) :: rest else (k', v') :: jsObjSet rest k v

/-- JavaScript object property read `obj[k]` (first binding wins). -/
def jsGet (fields : List (Str × JVal)) (k : Str) : Option JVal :=
  match fields with
  | [] => none
  | (k', v) :: rest => if k' = k then some v else jsGet rest k

/-- The fields of an object value (`Record` cast in the source; only applied
to values already known to be objects). -/
def objFields : JVal → List (Str × JVal)
  | .jobj f => f
  | _ => []

/-- `EncodeOptions` of the source, with its defaults. -/
structure EncodeOptions where
  indent : Nat := 2
  compact : Bool := false
  sortKeys : Bool := false
deriving DecidableEq

/-- `DecodeOptions` of the source, with its defaults. -/
structure DecodeOptions where
  strict : Bool := true
  indent : Nat := 2
deriving DecidableEq

/-- `STATUS_SYMBOLS` constant of the source (compact-mode word → symbol). -/
def STATUS_SYMBOLS : List (Str × Str) :=
  [("completed".data, "✓".data), ("complete".data, "✓".data),
   ("success".data, "✓".data), ("done".data, "✓".data),
   ("passed".data, "✓".data), ("true".data, "✓".data), ("yes".data, "✓".data),
   ("failed".data, "✗".data), ("failure".data, "✗".data),
   ("error".data, "✗".data), ("rejected".data, "✗".data),
   ("false".data, "✗".data), ("no".data, "✗".data),
   ("pending".data, "⏳".data), ("waiting".data, "⏳".data),
   ("in_progress".data, "⏳".data), ("running".data, "⏳".data),
   ("warning".data, "⚠".data), ("warn".data, "⚠".data),
   ("review".data, "?".data), ("unknown".data, "?".data)]

/-- `REVERSE_SYMBOLS` constant of the source (symbol → canonical word). -/
def REVERSE_SYMBOLS : List (Str × Str) :=
  [("✓".data, "true".data), ("✗".data, "false".data),
   ("⏳".data, "pending".data), ("⚠".data, "warning".data),
   ("?".data, "unknown".data)]

/-- The `/^-?\d+\.?\d*$/` test in `needsQuoting`. -/
def isPlainDecimal (s : Str) : Bool :=
  let s1 := if startsWithChar '-' s then s.tail else s
  let ds := s1.takeWhile Char.isDigit
  let rest := s1.drop ds.length
  ds ≠ [] &&
    (rest = [] || (startsWithChar '.' rest && rest.tail.all Char.isDigit))

/-- `needsQuoting` of the source, clause for clause. -/
def needsQuoting (value : Str) : Bool :=
  if value = [] then true
  else if startsWithChar ' ' value || endsWithChar ' ' value then true
  else if value.contains '|' || value.contains '\n' || value.contains '\r' then true
  else if value.contains ',' then true
  else if isPlainDecimal value then true
  else if toLowerStr value = "true".data || toLowerStr value = "false".data
       || toLowerStr value = "null".data then true
  else if value.contains ':' && !containsSeq "://".data value then true
  else if value.contains '"' then true
  else false

/-- `escapeString` of the source: the five sequential global replaces. -/
def escapeString (s : Str) : Str :=
  replaceSub "\t".data "\\t".data
    (replaceSub "\r".data "\\r".data
      (replaceSub "\n".data "\\n".data
        (replaceSub "\"".data "\\\"".data
          (replaceSub "\\".data "\\\\".data s))))

/-- `unescapeString` of the source: the five sequential global replaces,
in the source's order. -/
def unescapeString (s : Str) : Str :=
  replaceSub "\\\\".data "\\".data
    (replaceSub "\\\"".data "\"".data
      (replaceSub "\\t".data "\t".data
        (replaceSub "\\r".data "\r".data
          (replaceSub "\\n".data "\n".data s))))

/-! ## Number rendering and parsing

`String(value)` on an integer-valued float64 (within the safe range) prints
the plain decimal form; this is modelled by `natRepr` / `intRepr`. -/

/-- The recursion worker of `natRepr`, fuel-driven (the value shrinks by a
factor of ten per step, so `n` units of fuel always suffice; the fuel-zero
fallback is chosen to agree with the `n = 0` case). -/
def natReprAux : Nat → Nat → Str
  | 0, n => [Char.ofNat (48 + n % 10)]
  | fuel + 1, n =>
    if n < 10 then [Char.ofNat (48 + n)]
    else natReprAux fuel (n / 10) ++ [Char.ofNat (48 + n % 10)]

/-- Decimal digits of a natural number (model of `String(n)` for `n ≥ 0`). -/
def natRepr (n : Nat) : Str := natReprAux n n

/-- Model of JavaScript `String(n)` for an integer-valued number. -/
def intRepr (n : Int) : Str :=
  if n < 0 then '-' :: natRepr n.natAbs else natRepr n.toNat

/-- Numeric value of a digit string. -/
def digitsToNat (ds : Str) : Nat :=
  ds.foldl (fun a c => a * 10 + (c.toNat - 48)) 0

/-- Match of `/^-?\d+(\.\d+)?([eE][+-]?\d+)?$/` (the numeric test in
`parsePrimitive`), decomposed into sign, integer digits, fraction digits and
exponent. -/
def numShape? (s : Str) : Option (Bool × Str × Str × Option (Bool × Str)) :=
  let neg := startsWithChar '-' s
  let s1 := if neg then s.tail else s
  let I := s1.takeWhile Char.isDigit
  let r1 := s1.drop I.length
  if I = [] then none
  else
    let fracStep : Option (Str × Str) :=
      match r1 with
      | '.' :: rest =>
        let F := rest.takeWhile Char.isDigit
        if F = [] then none else some (F, rest.drop F.length)
      | _ => some ([], r1)
    match fracStep with
    | none => none
    | some (F, r2) =>
      match r2 with
      | [] => some (neg, I, F, none)
      | e :: rest =>
        if e = 'e' || e = 'E' then
          let (eneg, rest2) : Bool × Str :=
            match rest with
            | '+' :: t => (false, t)
            | '-' :: t => (true, t)
            | t => (false, t)
          let E := rest2.takeWhile Char.isDigit
          if E = [] || rest2.drop E.length ≠ [] then none
          else some (neg, I, F, some (eneg, E))
        else none

/-- Exact value of a matched numeral, when that value is an integer.
The source converts with `Number(...)` (float64) and keeps finite results;
the `Int` model covers exactly the integer-valued numerals, and every
theorem below excludes non-integer numerals by hypothesis. -/
def numericValue? (s : Str) : Option Int :=
  match numShape? s with
  | none => none
  | some (neg, I, F, ex) =>
    let mant : Nat := digitsToNat (I ++ F)
    let expVal : Int :=
      match ex with
      | none => 0
      | some (eneg, E) =>
        if eneg then -(digitsToNat E : Int) else (digitsToNat E : Int)
    let k : Int := expVal - F.length
    let mag? : Option Nat :=
      if 0 ≤ k then some (mant * 10 ^ k.toNat)
      else if 10 ^ (-k).toNat ∣ mant then some (mant / 10 ^ (-k).toNat)
      else none
    match mag? with
    | some m => some (if neg then -(m : Int) else (m : Int))
    | none => none

/-! ## Encoder -/

/-- `formatPrimitive` of the source.  The object/array fallback
(`String(value)`), unreachable from the source's call sites because they are
guarded by primitive checks, is modelled as the empty string. -/
def formatPrimitive (value : JVal) (options : EncodeOptions)
    (inTable : Bool := false) : Str :=
  match value with
  | .jnull => if inTable then "-".data else "null".data
  | .jbool b => if b then "true".data else "false".data
  | .jnum n => intRepr n
  | .jstr s =>
    match (if options.compact then STATUS_SYMBOLS.lookup (toLowerStr s)
           else none) with
    | some sym => sym
    | none =>
      if s = [] && inTable then "-".data
      else if needsQuoting s then '"' :: escapeString s ++ ['"']
      else s
  | .jarr _ => []
  | .jobj _ => []

/-- `isPrimitive` of the source. -/
def isPrimitive : JVal → Bool
  | .jnull | .jbool _ | .jnum _ | .jstr _ => true
  | _ => false

/-- Whether a value is a (non-array) object. -/
def isObjVal : JVal → Bool
  | .jobj _ => true
  | _ => false

/-- Lexicographic code-unit order on strings (JavaScript `Array.sort`'s
default comparator). -/
def strLe : Str → Str → Bool
  | [], _ => true
  | _ :: _, [] => false
  | a :: as, b :: bs => if a = b then strLe as bs else decide (a.val < b.val)

/-- `keys.sort().join(',')` of the source.  JavaScript `Array.sort` is a
stable sort under the default string comparator; it is modelled by the
(stable) insertion sort. -/
def sortedKeysJoined (fields : List (Str × JVal)) : Str :=
  List.intercalate ",".data
    (List.insertionSort (fun a b => strLe a b = true) (fields.map Prod.fst))

/-- `isTableArray` of the source. -/
def isTableArray (arr : List JVal) : Bool :=
  match arr with
  | [] => false
  | first :: _ =>
    arr.all isObjVal &&
    (let firstKeys := sortedKeysJoined (objFields first)
     arr.all (fun item => sortedKeysJoined (objFields item) = firstKeys)) &&
    arr.all (fun item => (objFields item).all (fun kv => isPrimitive kv.2))

/-- `isPrimitiveArray` of the source. -/
def isPrimitiveArray (arr : List JVal) : Bool :=
  arr.all isPrimitive

/-- `options.indent || 2` (JavaScript `||` maps `0` to the default `2`). -/
def indentOf (options : EncodeOptions) : Nat :=
  if options.indent = 0 then 2 else options.indent

/-- One step of `getColumnWidths`'s inner loop over a row. -/
def updWidths : List Nat → List Str → List Nat
  | ws, [] => ws
  | [], c :: cs => c.length :: updWidths [] cs
  | w :: ws, c :: cs => max w c.length :: updWidths ws cs

/-- `getColumnWidths` of the source. -/
def getColumnWidths (headers : List Str) (rows : List (List Str)) :
    List Nat :=
  rows.foldl updWidths (headers.map List.length)

/-- `padCell` of the source. -/
def padCell (value : Str) (width : Nat) : Str :=
  value ++ List.replicate (width - value.length) ' '

/-- `encodeTable` of the source. -/
def encodeTable (arr : List JVal) (options : EncodeOptions)
    (indentLevel : Nat) : Str :=
  match arr with
  | [] => "| |".data
  | first :: _ =>
    let indentUnit := List.replicate (indentOf options) ' '
    let baseIndent := (List.replicate indentLevel indentUnit).flatten
    let headers := (objFields first).map Prod.fst
    let rows := arr.map (fun o =>
      headers.map (fun h =>
        formatPrimitive ((jsGet (objFields o) h).getD .jnull) options true))
    let widths := getColumnWidths headers rows
    let headerCells := List.zipWith padCell headers widths
    let headerLine :=
      baseIndent ++ "| ".data ++ List.intercalate " | ".data headerCells
        ++ " |".data
    let rowLines := rows.map (fun row =>
      let cells := List.zipWith padCell row widths
      baseIndent ++ "| ".data ++ List.intercalate " | ".data cells
        ++ " |".data)
    List.intercalate "\n".data (headerLine :: rowLines)

/-- Permutations preserve `sizeOf` (used for the termination of the
encoder in the presence of `sortKeys`). -/
theorem sizeOf_of_perm {α : Type} [SizeOf α] {l₁ l₂ : List α}
    (h : l₁.Perm l₂) : sizeOf l₁ = sizeOf l₂ := by
  induction h with
  | nil => rfl
  | cons x _ ih => simp only [List.cons.sizeOf_spec, ih]
  | swap x y l => simp only [List.cons.sizeOf_spec]; omega
  | trans _ _ ih₁ ih₂ => omega

theorem sizeOf_insertionSort (r : Str × JVal → Str × JVal → Prop)
    [DecidableRel r] (l : List (Str × JVal)) :
    sizeOf (List.insertionSort r l) = sizeOf l :=
  sizeOf_of_perm (List.perm_insertionSort r l)

mutual

/-- `encodeValue` of the source. -/
def encodeValue (value : JVal) (options : EncodeOptions)
    (indentLevel : Nat) : Str :=
  let indentUnit := List.replicate (indentOf options) ' '
  let baseIndent := (List.replicate indentLevel indentUnit).flatten
  match value with
  | .jnull | .jbool _ | .jnum _ | .jstr _ =>
    formatPrimitive value options
  | .jarr items =>
    if items.isEmpty then "[]".data
    else if isPrimitiveArray items then
      List.intercalate ", ".data
        (items.map (fun v => formatPrimitive v options))
    else if isTableArray items then
      '\n' :: encodeTable items options (indentLevel + 1)
    else
      '\n' :: List.intercalate "\n".data
        (encodeItems items options indentLevel (baseIndent ++ indentUnit))
  | .jobj fields =>
    let sorted := if options.sortKeys
      then List.insertionSort (fun a b => strLe a.1 b.1 = true) fields
      else fields
    if sorted.isEmpty then []
    else List.intercalate "\n".data
      (encodeFields sorted options indentLevel baseIndent)
termination_by sizeOf value
decreasing_by
  all_goals simp_wf
  all_goals try simp only [List.cons.sizeOf_spec, Prod.mk.sizeOf_spec,
    JVal.jarr.sizeOf_spec, JVal.jobj.sizeOf_spec]
  all_goals try omega
  all_goals split
  all_goals try omega
  all_goals rw [sizeOf_insertionSort]
  all_goals omega

/-- The mixed-array loop of `encodeValue`. -/
def encodeItems (items : List JVal) (options : EncodeOptions)
    (indentLevel : Nat) (itemIndent : Str) : List Str :=
  match items with
  | [] => []
  | item :: rest =>
    let lines :=
      match item with
      | .jnull | .jbool _ | .jnum _ | .jstr _ =>
        [itemIndent ++ "- ".data ++ formatPrimitive item options]
      | .jarr xs =>
        let encoded := encodeValue (.jarr xs) options (indentLevel + 2)
        if encoded.contains '\n' then
          [itemIndent ++ "-".data, encoded]
        else
          [itemIndent ++ "- ".data ++ encoded]
      | .jobj fs =>
        let encoded := encodeValue (.jobj fs) options (indentLevel + 2)
        if encoded.contains '\n' then
          [itemIndent ++ "-".data, encoded]
        else
          [itemIndent ++ "- ".data ++ encoded]
    lines ++ encodeItems rest options indentLevel itemIndent
termination_by sizeOf items
decreasing_by
  all_goals simp_wf
  all_goals try simp only [List.cons.sizeOf_spec, Prod.mk.sizeOf_spec,
    JVal.jarr.sizeOf_spec, JVal.jobj.sizeOf_spec]
  all_goals omega

/-- The object key/value loop of `encodeValue`. -/
def encodeFields (fields : List (Str × JVal)) (options : EncodeOptions)
    (indentLevel : Nat) (baseIndent : Str) : List Str :=
  match fields with
  | [] => []
  | (key, val) :: rest =>
    let lines :=
      match val with
      | .jnull => [baseIndent ++ key ++ ": null".data]
      | .jbool _ | .jnum _ | .jstr _ =>
        [baseIndent ++ key ++ ": ".data ++ formatPrimitive val options]
      | .jarr items =>
        if items.isEmpty then [baseIndent ++ key ++ ": []".data]
        else if isPrimitiveArray items then
          [baseIndent ++ key ++ ": ".data ++
            List.intercalate ", ".data
              (items.map (fun v => formatPrimitive v options))]
        else
          [baseIndent ++ key ++ ":".data ++
            encodeValue (.jarr items) options indentLevel]
      | .jobj f =>
        let nested := encodeValue (.jobj f) options (indentLevel + 1)
        if nested = [] then [baseIndent ++ key ++ ":".data]
        else if nested.contains '\n' then
          [baseIndent ++ key ++ ":".data, nested]
        else [baseIndent ++ key ++ ": ".data ++ nested]
    lines ++ encodeFields rest options indentLevel baseIndent
termination_by sizeOf fields
decreasing_by
  all_goals simp_wf
  all_goals try simp only [List.cons.sizeOf_spec, Prod.mk.sizeOf_spec,
    JVal.jarr.sizeOf_spec, JVal.jobj.sizeOf_spec]
  all_goals omega

end

/-- `encode` of the source (top-level dispatch). -/
def encode (value : JVal) (options : EncodeOptions := {}) : Str :=
  match value with
  | .jnull => "null".data
  | .jbool _ | .jnum _ | .jstr _ => formatPrimitive value options
  | .jarr items =>
    if items.isEmpty then "_: []".data
    else if isPrimitiveArray items then
      "_: ".data ++ List.intercalate ", ".data
        (items.map (fun v => formatPrimitive v options))
    else if isTableArray items then
      "_:\n".data ++ encodeTable items options 1
    else
      "_:".data ++ encodeValue (.jarr items) options 0
  | .jobj _ => encodeValue value options 0

/-! ## Decoder -/

/-- `parsePrimitive` of the source. -/
def parsePrimitive (value : Str) : JVal :=
  let trimmed := jsTrim value
  if trimmed = "null".data || trimmed = "-".data || trimmed = [] then .jnull
  else if trimmed = "true".data then .jbool true
  else if trimmed = "false".data then .jbool false
  else
    match REVERSE_SYMBOLS.lookup trimmed with
    | some w => .jstr w
    | none =>
      if startsWithChar '"' trimmed && endsWithChar '"' trimmed then
        .jstr (unescapeString ((trimmed.drop 1).dropLast))
      else
        match numericValue? trimmed with
        | some n => .jnum n
        | none => .jstr trimmed

/-- `line.length - line.trimStart().length` of the source. -/
def lineIndentOf (line : Str) : Nat :=
  line.length - (jsTrimStart line).length

/-- JavaScript `String.prototype.indexOf` for a single character
(`-1` becomes `none`). -/
def idxOf? (c : Char) : Str → Option Nat
  | [] => none
  | d :: t => if d = c then some 0 else (idxOf? c t).map (· + 1)

/-- The row loop of `parseTable`.  Returns the parsed rows together with the
lines at which the loop stopped (the source's `endIndex + 1` onwards). -/
def parseTableRows (headers : List Str) (indent : Nat) :
    List Str → List JVal × List Str
  | [] => ([], [])
  | line :: rest =>
    let trimmed := jsTrim line
    if !startsWithChar '|' trimmed then ([], line :: rest)
    else if lineIndentOf line < indent && trimmed ≠ [] then ([], line :: rest)
    else
      let cells := (((splitOn "|".data trimmed).drop 1).dropLast).map
        (fun c => parsePrimitive (jsTrim c))
      let res := parseTableRows headers indent rest
      if cells.length = headers.length then
        (.jobj ((headers.zip cells).foldl
          (fun acc hc => jsObjSet acc hc.1 hc.2) []) :: res.1, res.2)
      else res

/-- `parseTable` of the source: parse the header line, then the row loop. -/
def parseTable (lines : List Str) (indent : Nat) : List JVal × List Str :=
  match lines with
  | [] => ([], [])
  | header :: rest =>
    let headerLine := jsTrim header
    if !startsWithChar '|' headerLine then ([], header :: rest)
    else
      let headers := (((splitOn "|".data headerLine).drop 1).dropLast).map
        jsTrim
      parseTableRows headers indent rest

/-- Whether a line is skipped by the document parser (blank or comment). -/
def isBlankOrComment (line : Str) : Bool :=
  jsTrim line = [] || startsWithChar '#' (jsTrim line)

/-- `parseDocument` of the source, as a fuel-indexed recursion over the
remaining lines.  `acc` is the result object under construction (the
source's `result`, updated by JavaScript property assignment); the returned
list of lines is where the loop stopped.  `decode` supplies one unit of
fuel per line plus one, which is sufficient because every loop step either
stops or consumes at least one line. -/
def parseDoc (options : DecodeOptions) : Nat → List (Str × JVal) →
    List Str → Nat → List (Str × JVal) × List Str
  | 0, acc, lines, _ => (acc, lines)
  | _ + 1, acc, [], _ => (acc, [])
  | fuel + 1, acc, line :: rest, baseIndent =>
    if isBlankOrComment line then parseDoc options fuel acc rest baseIndent
    else if lineIndentOf line < baseIndent then (acc, line :: rest)
    else if lineIndentOf line > baseIndent then
      parseDoc options fuel acc rest baseIndent
    else
      let trimmed := jsTrim line
      if startsWithChar '|' trimmed then
        parseDoc options fuel acc rest baseIndent
      else
        match idxOf? ':' trimmed with
        | none => parseDoc options fuel acc rest baseIndent
        | some colonIndex =>
          let key := jsTrim (trimmed.take colonIndex)
          let valueStr := jsTrim (trimmed.drop (colonIndex + 1))
          if valueStr = [] || valueStr = "[]".data then
            let after := rest.dropWhile (fun l => jsTrim l = [])
            let emptyVal : JVal :=
              if valueStr = "[]".data then .jarr [] else .jobj []
            match after with
            | [] =>
              parseDoc options fuel (jsObjSet acc key emptyVal) rest
                baseIndent
            | next :: _ =>
              let nextIndent := lineIndentOf next
              let nextTrimmed := jsTrim next
              if nextIndent > baseIndent && startsWithChar '|' nextTrimmed
              then
                let tres := parseTable after nextIndent
                parseDoc options fuel (jsObjSet acc key (.jarr tres.1))
                  tres.2 baseIndent
              else if nextIndent > baseIndent && nextTrimmed ≠ [] &&
                  !startsWithChar '#' nextTrimmed then
                let nres := parseDoc options fuel [] after nextIndent
                parseDoc options fuel (jsObjSet acc key (.jobj nres.1))
                  nres.2 baseIndent
              else
                parseDoc options fuel (jsObjSet acc key emptyVal) rest
                  baseIndent
          else if startsWithChar '"' valueStr && endsWithChar '"' valueStr
          then
            parseDoc options fuel
              (jsObjSet acc key (parsePrimitive valueStr)) rest baseIndent
          else if containsSeq " | ".data valueStr then
            parseDoc options fuel
              (jsObjSet acc key (.jarr ((splitOn " | ".data valueStr).map
                (fun v => parsePrimitive (jsTrim v))))) rest baseIndent
          else if containsSeq ", ".data valueStr then
            parseDoc options fuel
              (jsObjSet acc key (.jarr ((splitOn ", ".data valueStr).map
                (fun v => parsePrimitive (jsTrim v))))) rest baseIndent
          else
            parseDoc options fuel
              (jsObjSet acc key (parsePrimitive valueStr)) rest baseIndent

/-- The line-ending normalization at the top of `decode` and `validate`:
`input.replace(/\r\n/g, '\n').replace(/\r/g, '\n')`. -/
def normalizeNewlines (input : Str) : Str :=
  replaceSub "\r".data "\n".data (replaceSub "\r\n".data "\n".data input)

/-- `decode` of the source. -/
def decode (input : Str) (options : DecodeOptions := {}) : JVal :=
  let lines := splitOn "\n".data (normalizeNewlines input)
  if lines.all isBlankOrComment then .jobj []
  else
    match lines.dropWhile isBlankOrComment with
    | [] => .jobj []
    | first :: others =>
      let firstLine := jsTrim first
      if startsWithChar '|' firstLine then
        .jarr (parseTable (first :: others) 0).1
      else if "_:".data.isPrefixOf firstLine then
        let valueStr := jsTrim (firstLine.drop 2)
        if valueStr = [] || valueStr = "[]".data then
          match others with
          | next :: _ =>
            if next ≠ [] && startsWithChar '|' (jsTrim next) then
              .jarr (parseTable others 2).1
            else .jarr []
          | [] => .jarr []
        else if containsSeq ", ".data valueStr then
          .jarr ((splitOn ", ".data valueStr).map
            (fun v => parsePrimitive (jsTrim v)))
        else .jarr [parsePrimitive valueStr]
      else
        .jobj (parseDoc options ((first :: others).length + 1) []
          (first :: others) 0).1

/-! ## Validator -/

/-- `ValidationError` of the source. -/
structure ValidationError where
  line : Nat
  column : Nat
  message : Str
  context : Str
deriving DecidableEq

/-- `ValidationResult` of the source. -/
structure ValidationResult where
  valid : Bool
  errors : List ValidationError

/-- The line loop of `validate`, carrying the `inTable` / `tableColumns`
state and the 1-based line number. -/
def validateLines : List Str → Nat → Bool → Nat → List ValidationError
  | [], _, _, _ => []
  | line :: rest, lineNum, inTable, tableColumns =>
    let trimmed := jsTrim line
    if trimmed = [] || startsWithChar '#' trimmed then
      validateLines rest (lineNum + 1) inTable tableColumns
    else
      let indent := lineIndentOf line
      let indentErrs : List ValidationError :=
        if indent % 2 ≠ 0 then
          [⟨lineNum, 1,
            "Inconsistent indentation: ".data ++ natRepr indent ++
              " spaces (should be multiple of 2)".data, line⟩]
        else []
      if startsWithChar '|' trimmed then
        let pipes := (splitOn "|".data trimmed).length - 1
        let mismatchErrs : List ValidationError :=
          if inTable && pipes ≠ tableColumns then
            [⟨lineNum, 1,
              "Table column mismatch: expected ".data ++
                natRepr (tableColumns - 1) ++ " columns, got ".data ++
                natRepr (pipes - 1), line⟩]
          else []
        let endErrs : List ValidationError :=
          if !endsWithChar '|' trimmed then
            [⟨lineNum, trimmed.length, "Table row must end with |".data,
              line⟩]
          else []
        indentErrs ++ mismatchErrs ++ endErrs ++
          validateLines rest (lineNum + 1) true
            (if inTable then tableColumns else pipes)
      else
        indentErrs ++ validateLines rest (lineNum + 1) false 0

/-- `validate` of the source. -/
def validate (input : Str) : ValidationResult :=
  let lines := splitOn "\n".data (normalizeNewlines input)
  let errors := validateLines lines 1 false 0
  ⟨decide (errors.length = 0), errors⟩

/-! ## Predicates used by the claims -/

/-- A colon occurrence that is not the start of a `://` substring
(the colon of `://` is its first character). -/
def hasBareColon : Str → Bool
  | [] => false
  | c :: rest =>
    if c = ':' && !("//".data.isPrefixOf rest) then true else hasBareColon rest

/-- The spec's quoting-trigger list, clause for clause, with its colon
clause read literally: "it contains a colon not part of a `://`
substring".  This is the spec-side comparator for the claim about
`needsQuoting`; the code-side clause is `value.includes(':') &&
!value.includes('://')` instead. -/
def specQuotingTrigger (s : Str) : Bool :=
  s.isEmpty || startsWithChar ' ' s || endsWithChar ' ' s ||
  s.contains '|' || s.contains '\n' || s.contains '\r' ||
  s.contains ',' || isPlainDecimal s ||
  toLowerStr s = "true".data || toLowerStr s = "false".data ||
  toLowerStr s = "null".data || hasBareColon s || s.contains '"'

/-- The spec's quoting-trigger list with the colon clause as the code
implements it (colon present and `://` absent anywhere). -/
def codeQuotingTrigger (s : Str) : Bool :=
  s.isEmpty || startsWithChar ' ' s || endsWithChar ' ' s ||
  s.contains '|' || s.contains '\n' || s.contains '\r' ||
  s.contains ',' || isPlainDecimal s ||
  toLowerStr s = "true".data || toLowerStr s = "false".data ||
  toLowerStr s = "null".data ||
  (s.contains ':' && !containsSeq "://".data s) || s.contains '"'

/-- A string value that survives `parsePrimitive ∘ formatPrimitive`:
no backslash (the source's unescape order corrupts escaped backslashes),
and — when the quoting rule does not fire — stable under `trim`, distinct
from the dash/bracket forms that the parser reinterprets, not a
compact-mode symbol and not numeral-shaped. -/
def safeScalarString (s : Str) : Bool :=
  !s.contains '\\' &&
  (needsQuoting s ||
    (jsTrim s == s && s ≠ "-".data && s ≠ "[]".data &&
     (REVERSE_SYMBOLS.lookup s).isNone && (numShape? s).isNone))

/-- A primitive value that survives a `key: value` round-trip. -/
def safeScalar : JVal → Bool
  | .jnull | .jbool _ | .jnum _ => true
  | .jstr s => safeScalarString s
  | _ => false

/-- A string value that survives a table-cell round-trip: additionally no
pipe (the row splitter cuts at every pipe, quoted or not) and non-empty
(the empty string encodes to `-`, which parses back as null). -/
def safeCellString (s : Str) : Bool :=
  !s.contains '\\' && !s.contains '|' && !s.isEmpty &&
  (needsQuoting s ||
    (jsTrim s == s && s ≠ "-".data &&
     (REVERSE_SYMBOLS.lookup s).isNone && (numShape? s).isNone))

/-- A primitive value that survives a table-cell round-trip. -/
def safeCell : JVal → Bool
  | .jnull | .jbool _ | .jnum _ => true
  | .jstr s => safeCellString s
  | _ => false

/-- An object key that survives a `key: value` round-trip. -/
def safeKey (k : Str) : Bool :=
  jsTrim k == k && !k.contains ':' && !k.contains '\n' &&
  !k.contains '\r' && k ≠ "_".data && !startsWithChar '#' k &&
  !startsWithChar '|' k

/-- A table column name that survives the header round-trip. -/
def safeHeader (h : Str) : Bool :=
  jsTrim h == h && !h.contains '|' && !h.contains '\n' && !h.contains '\r'

/-- The headers the table sub-parser derives from the first line. -/
def tableHeaders (lines : List Str) : List Str :=
  match lines with
  | [] => []
  | header :: _ =>
    let headerLine := jsTrim header
    if !startsWithChar '|' headerLine then []
    else (((splitOn "|".data headerLine).drop 1).dropLast).map jsTrim

/-- The key list of a row object. -/
def rowKeys : JVal → List Str
  | .jobj fields => fields.map Prod.fst
  | _ => []

/-- Whether a value is an object or an array (the only shapes `decode`
can return). -/
def isObjOrArr : JVal → Bool
  | .jobj _ | .jarr _ => true
  | _ => false

/-- The per-character expansion of `escapeString`. -/
def escChar (c : Char) : Str :=
  if c = '\\' then ['\\', '\\']
  else if c = '"' then ['\\', '"']
  else if c = '\n' then ['\\', 'n']
  else if c = '\r' then ['\\', 'r']
  else if c = '\t' then ['\\', 't']
  else [c]

/-! ## Lemmas about trimming -/

theorem jsTrimStart_cons_of_neg {c : Char} (t : Str)
    (h : isJsWhitespace c = false) : jsTrimStart (c :: t) = c :: t := by
  simp [jsTrimStart, List.dropWhile_cons, h]

theorem jsTrimStart_cons_of_pos {c : Char} (t : Str)
    (h : isJsWhitespace c = true) : jsTrimStart (c :: t) = jsTrimStart t := by
  simp [jsTrimStart, List.dropWhile_cons, h]

theorem jsTrimEnd_append_of_neg (s : Str) {c : Char}
    (h : isJsWhitespace c = false) : jsTrimEnd (s ++ [c]) = s ++ [c] := by
  simp [jsTrimEnd, List.reverse_append, List.dropWhile_cons, h]

theorem jsTrimStart_eq_self {s : Str}
    (h : ∀ c, s.head? = some c → isJsWhitespace c = false) :
    jsTrimStart s = s := by
  cases s with
  | nil => rfl
  | cons a t => exact jsTrimStart_cons_of_neg t (h a rfl)

theorem jsTrimEnd_eq_self {s : Str}
    (h : ∀ c, s.getLast? = some c → isJsWhitespace c = false) :
    jsTrimEnd s = s := by
  induction s using List.reverseRecOn with
  | nil => rfl
  | append_singleton s c _ =>
    exact jsTrimEnd_append_of_neg s (h c (by simp))

theorem jsTrim_eq_self {s : Str}
    (h1 : ∀ c, s.head? = some c → isJsWhitespace c = false)
    (h2 : ∀ c, s.getLast? = some c → isJsWhitespace c = false) :
    jsTrim s = s := by
  rw [jsTrim, jsTrimStart_eq_self h1, jsTrimEnd_eq_self h2]

theorem length_jsTrimStart_le (s : Str) :
    (jsTrimStart s).length ≤ s.length :=
  (List.dropWhile_sublist _).length_le

theorem length_jsTrimEnd_le (s : Str) : (jsTrimEnd s).length ≤ s.length := by
  have := (List.dropWhile_sublist (l := s.reverse) (p := isJsWhitespace)).length_le
  simpa [jsTrimEnd] using this

theorem length_jsTrim_le (s : Str) : (jsTrim s).length ≤ s.length :=
  le_trans (length_jsTrimEnd_le _) (length_jsTrimStart_le s)

theorem jsTrimStart_eq_self_of_jsTrim {s : Str} (h : jsTrim s = s) :
    jsTrimStart s = s := by
  have hsub : (jsTrimStart s).Sublist s := List.dropWhile_sublist _
  have h2 := length_jsTrimEnd_le (jsTrimStart s)
  have h3 := congrArg List.length h
  rw [jsTrim] at h3
  have hlen : s.length ≤ (jsTrimStart s).length := by omega
  exact hsub.eq_of_length (le_antisymm hsub.length_le hlen)

theorem jsTrimEnd_eq_self_of_jsTrim {s : Str} (h : jsTrim s = s) :
    jsTrimEnd s = s := by
  have h1 := jsTrimStart_eq_self_of_jsTrim h
  rw [jsTrim, h1] at h
  exact h

theorem head_not_ws_of_jsTrimStart {c : Char} {t : Str}
    (h : jsTrimStart (c :: t) = c :: t) : isJsWhitespace c = false := by
  by_contra hws
  rw [Bool.not_eq_false] at hws
  rw [jsTrimStart_cons_of_pos t hws] at h
  have := length_jsTrimStart_le t
  have := congrArg List.length h
  simp at this
  omega

theorem last_not_ws_of_jsTrimEnd {s : Str} {c : Char}
    (h : jsTrimEnd s = s) (hc : s.getLast? = some c) :
    isJsWhitespace c = false := by
  by_contra hws
  rw [Bool.not_eq_false] at hws
  have hrev : s.reverse.head? = some c := by rw [List.head?_reverse]; exact hc
  cases hr : s.reverse with
  | nil => rw [hr] at hrev; simp at hrev
  | cons d r =>
    rw [hr] at hrev
    simp at hrev
    subst hrev
    have : jsTrimEnd s = (List.dropWhile isJsWhitespace r).reverse := by
      rw [jsTrimEnd, hr, List.dropWhile_cons, hws]
      simp
    rw [h] at this
    have hlen := congrArg List.length this
    have hdw := (List.dropWhile_sublist (l := r) (p := isJsWhitespace)).length_le
    have hsr : s.length = r.length + 1 := by
      have := congrArg List.length hr
      simpa using this
    simp at hlen
    omega

/-! ## Lemmas about replaceSub, escaping and unescaping -/

theorem replaceSubAux_congr (pat rep : Str) :
    ∀ (f1 : Nat) (s : Str) (f2 : Nat), s.length ≤ f1 → s.length ≤ f2 →
      replaceSubAux pat rep f1 s = replaceSubAux pat rep f2 s := by
  intro f1
  induction f1 with
  | zero =>
    intro s f2 h1 _
    have hs : s = [] := List.eq_nil_of_length_eq_zero (Nat.le_zero.mp h1)
    subst hs
    cases f2 <;> rfl
  | succ f ih =>
    intro s f2 h1 h2
    cases s with
    | nil => cases f2 <;> rfl
    | cons c rest =>
      cases f2 with
      | zero => simp at h2
      | succ g =>
        simp only [replaceSubAux]
        simp only [List.length_cons] at h1 h2
        by_cases hc : pat ≠ [] ∧ pat.isPrefixOf (c :: rest) = true
        · rw [if_pos hc, if_pos hc]
          congr 1
          have hpat : pat.length ≥ 1 := by
            cases pat with
            | nil => exact absurd rfl hc.1
            | cons x xs => simp
          apply ih
          · simp only [List.length_drop, List.length_cons]; omega
          · simp only [List.length_drop, List.length_cons]; omega
        · rw [if_neg hc, if_neg hc]
          congr 1
          exact ih rest g (by omega) (by omega)

theorem replaceSub_nil (pat rep : Str) : replaceSub pat rep [] = [] := rfl

theorem replaceSub_cons_eq (pat rep : Str) (c : Char) (t : Str) :
    replaceSub pat rep (c :: t) =
      if pat ≠ [] ∧ pat.isPrefixOf (c :: t) = true then
        rep ++ replaceSub pat rep ((c :: t).drop pat.length)
      else c :: replaceSub pat rep t := by
  show replaceSubAux pat rep (t.length + 1) (c :: t) = _
  simp only [replaceSubAux]
  by_cases hc : pat ≠ [] ∧ pat.isPrefixOf (c :: t) = true
  · rw [if_pos hc, if_pos hc]
    congr 1
    have hpat : pat.length ≥ 1 := by
      cases pat with
      | nil => exact absurd rfl hc.1
      | cons x xs => simp
    apply replaceSubAux_congr
    · simp only [List.length_drop, List.length_cons]; omega
    · simp only [List.length_drop, List.length_cons]; omega
  · rw [if_neg hc, if_neg hc]
    rfl

theorem replaceSub_cons_neg (pat rep : Str) (c : Char) (t : Str)
    (h : pat.isPrefixOf (c :: t) = false) :
    replaceSub pat rep (c :: t) = c :: replaceSub pat rep t := by
  rw [replaceSub_cons_eq]
  simp [h]

theorem replaceSub_append_match (pat rep t : Str) (hne : pat ≠ []) :
    replaceSub pat rep (pat ++ t) = rep ++ replaceSub pat rep t := by
  obtain ⟨p, ps, rfl⟩ : ∃ p ps, pat = p :: ps := by
    cases pat with
    | nil => exact absurd rfl hne
    | cons p ps => exact ⟨p, ps, rfl⟩
  have hpre : (p :: ps).isPrefixOf (p :: ps ++ t) = true := by
    rw [List.isPrefixOf_iff_prefix]
    exact List.prefix_append (p :: ps) t
  show replaceSub (p :: ps) rep (p :: (ps ++ t)) = _
  rw [replaceSub_cons_eq, if_pos ⟨List.cons_ne_nil p ps, hpre⟩]
  congr 2
  simp [List.drop_left]

theorem replaceSub_single_cons (p : Char) (rep : Str) (c : Char) (t : Str) :
    replaceSub [p] rep (c :: t) =
      if c = p then rep ++ replaceSub [p] rep t
      else c :: replaceSub [p] rep t := by
  by_cases h : c = p
  · subst h
    have := replaceSub_append_match [c] rep t (by simp)
    simpa using this
  · rw [replaceSub_cons_neg]
    · simp [h]
    · simp [List.isPrefixOf]
      intro hpc
      exact absurd hpc.symm h

theorem escapeString_nil : escapeString [] = [] := by
  simp [escapeString, replaceSub_nil]

theorem escapeString_cons (c : Char) (t : Str) :
    escapeString (c :: t) = escChar c ++ escapeString t := by
  by_cases h1 : c = '\\'
  · subst h1
    simp [escapeString, escChar, replaceSub_single_cons]
  · by_cases h2 : c = '"'
    · subst h2
      simp [escapeString, escChar, replaceSub_single_cons]
    · by_cases h3 : c = '\n'
      · subst h3
        simp [escapeString, escChar, replaceSub_single_cons]
      · by_cases h4 : c = '\r'
        · subst h4
          simp [escapeString, escChar, replaceSub_single_cons]
        · by_cases h5 : c = '\t'
          · subst h5
            simp [escapeString, escChar, replaceSub_single_cons]
          · simp [escapeString, escChar, replaceSub_single_cons,
              h1, h2, h3, h4, h5]

theorem unescapeString_nil : unescapeString [] = [] := by
  simp [unescapeString, replaceSub_nil]

theorem replaceSub_two_cons_neg (p q : Char) (rep : Str) (c : Char)
    (t : Str) (h : c ≠ p) :
    replaceSub [p, q] rep (c :: t) = c :: replaceSub [p, q] rep t := by
  rw [replaceSub_cons_neg]
  simp [List.isPrefixOf]
  intro hpc
  exact absurd hpc.symm h

theorem replaceSub_two_cons_cons_neg (p q : Char) (rep : Str)
    (c d : Char) (t : Str) (h : ¬(c = p ∧ d = q)) :
    replaceSub [p, q] rep (c :: d :: t) =
      c :: replaceSub [p, q] rep (d :: t) := by
  apply replaceSub_cons_neg
  simp [List.isPrefixOf]
  intro hpc hqd
  exact h ⟨hpc.symm, hqd.symm⟩

/-! String-literal `data` normalizations, used to rewrite the model's
string constants into explicit character lists. -/

theorem data_bs : "\\".data = ['\\'] := rfl
theorem data_bs2 : "\\\\".data = ['\\', '\\'] := rfl
theorem data_dq : "\"".data = ['"'] := rfl
theorem data_bsdq : "\\\"".data = ['\\', '"'] := rfl
theorem data_nl : "\n".data = ['\n'] := rfl
theorem data_cr : "\r".data = ['\r'] := rfl
theorem data_tab : "\t".data = ['\t'] := rfl
theorem data_bsn : "\\n".data = ['\\', 'n'] := rfl
theorem data_bsr : "\\r".data = ['\\', 'r'] := rfl
theorem data_bst : "\\t".data = ['\\', 't'] := rfl
theorem data_crnl : "\r\n".data = ['\r', '\n'] := rfl
theorem data_dash : "-".data = ['-'] := rfl
theorem data_null : "null".data = ['n', 'u', 'l', 'l'] := rfl
theorem data_true : "true".data = ['t', 'r', 'u', 'e'] := rfl
theorem data_false : "false".data = ['f', 'a', 'l', 's', 'e'] := rfl
theorem data_brackets : "[]".data = ['[', ']'] := rfl
theorem data_usc : "_:".data = ['_', ':'] := rfl
theorem data_commasp : ", ".data = [',', ' '] := rfl
theorem data_pipesp : " | ".data = [' ', '|', ' '] := rfl
theorem data_pipeopen : "| ".data = ['|', ' '] := rfl
theorem data_pipeclose : " |".data = [' ', '|'] := rfl
theorem data_pipe : "|".data = ['|'] := rfl
theorem data_slashes : "://".data = [':', '/', '/'] := rfl
theorem data_colonsp : ": ".data = [':', ' '] := rfl
theorem data_colonnull : ": null".data = [':', ' ', 'n', 'u', 'l', 'l'] := rfl
theorem data_colon : ":".data = [':'] := rfl
theorem data_colonbrackets : ": []".data = [':', ' ', '[', ']'] := rfl

theorem replaceSub_two_cons_cons_match (p q : Char) (rep : Str)
    (t : Str) :
    replaceSub [p, q] rep (p :: q :: t) = rep ++ replaceSub [p, q] rep t :=
  replaceSub_append_match [p, q] rep t (by simp)

theorem unescape_escChar (c : Char) (T : Str) (hc : c ≠ '\\') :
    unescapeString (escChar c ++ T) = c :: unescapeString T := by
  by_cases h1 : c = '\n'
  · subst h1
    unfold unescapeString
    simp (disch := decide) only [escChar, data_bsn, data_nl, data_bsr,
      data_cr, data_bst, data_tab, data_bsdq, data_dq, data_bs2, data_bs,
      if_pos, if_neg, List.singleton_append, List.cons_append,
      List.nil_append, replaceSub_two_cons_cons_match,
      replaceSub_two_cons_neg, replaceSub_two_cons_cons_neg]
  · by_cases h2 : c = '\r'
    · subst h2
      unfold unescapeString
      simp (disch := decide) only [escChar, data_bsn, data_nl, data_bsr,
        data_cr, data_bst, data_tab, data_bsdq, data_dq, data_bs2, data_bs,
        if_pos, if_neg, List.singleton_append, List.cons_append,
        List.nil_append, replaceSub_two_cons_cons_match,
        replaceSub_two_cons_neg, replaceSub_two_cons_cons_neg]
    · by_cases h3 : c = '\t'
      · subst h3
        unfold unescapeString
        simp (disch := decide) only [escChar, data_bsn, data_nl, data_bsr,
          data_cr, data_bst, data_tab, data_bsdq, data_dq, data_bs2,
          data_bs, if_pos, if_neg, List.singleton_append, List.cons_append,
          List.nil_append, replaceSub_two_cons_cons_match,
          replaceSub_two_cons_neg, replaceSub_two_cons_cons_neg]
      · by_cases h4 : c = '"'
        · subst h4
          unfold unescapeString
          simp (disch := decide) only [escChar, data_bsn, data_nl,
            data_bsr, data_cr, data_bst, data_tab, data_bsdq, data_dq,
            data_bs2, data_bs, if_pos, if_neg, List.singleton_append,
            List.cons_append, List.nil_append,
            replaceSub_two_cons_cons_match, replaceSub_two_cons_neg,
            replaceSub_two_cons_cons_neg]
        · have hesc : escChar c = [c] := by
            simp [escChar, hc, h1, h2, h3, h4]
          rw [hesc]
          unfold unescapeString
          simp only [data_bsn, data_nl, data_bsr, data_cr, data_bst,
            data_tab, data_bsdq, data_dq, data_bs2, data_bs,
            List.singleton_append]
          rw [replaceSub_two_cons_neg _ _ _ _ _ hc,
            replaceSub_two_cons_neg _ _ _ _ _ hc,
            replaceSub_two_cons_neg _ _ _ _ _ hc,
            replaceSub_two_cons_neg _ _ _ _ _ hc,
            replaceSub_two_cons_neg _ _ _ _ _ hc]

/-- The unescaper inverts the escaper on backslash-free strings (the
source's unescape order corrupts strings containing a literal
backslash followed by `n`, `r`, `t`, `"` or `\`). -/
theorem unescape_escape {s : Str} (h : '\\' ∉ s) :
    unescapeString (escapeString s) = s := by
  induction s with
  | nil => rw [escapeString_nil, unescapeString_nil]
  | cons c t ih =>
    have hc : c ≠ '\\' := by
      intro hcc
      exact h (hcc ▸ List.mem_cons_self c t)
    rw [escapeString_cons, unescape_escChar c _ hc,
      ih (fun hm => h (List.mem_cons_of_mem c hm))]

/-! ## Lemmas about numerals -/

theorem digit_char_isDigit {d : Nat} (h : d < 10) :
    (Char.ofNat (48 + d)).isDigit = true := by
  interval_cases d <;> decide

theorem digit_char_toNat {d : Nat} (h : d < 10) :
    (Char.ofNat (48 + d)).toNat = 48 + d := by
  interval_cases d <;> decide

theorem natReprAux_congr :
    ∀ (f1 n f2 : Nat), n ≤ f1 → n ≤ f2 →
      natReprAux f1 n = natReprAux f2 n := by
  intro f1
  induction f1 with
  | zero =>
    intro n f2 h1 _
    have hn : n = 0 := Nat.le_zero.mp h1
    subst hn
    cases f2 <;> rfl
  | succ f ih =>
    intro n f2 h1 h2
    cases f2 with
    | zero =>
      have hn : n = 0 := Nat.le_zero.mp h2
      subst hn
      rfl
    | succ g =>
      simp only [natReprAux]
      by_cases hn : n < 10
      · rw [if_pos hn, if_pos hn]
      · rw [if_neg hn, if_neg hn]
        congr 1
        exact ih (n / 10) g (by omega) (by omega)

theorem natRepr_eq (n : Nat) :
    natRepr n = if n < 10 then [Char.ofNat (48 + n)]
      else natRepr (n / 10) ++ [Char.ofNat (48 + n % 10)] := by
  cases n with
  | zero => rfl
  | succ m =>
    show natReprAux (m + 1) (m + 1) = _
    simp only [natReprAux]
    by_cases hn : m + 1 < 10
    · rw [if_pos hn, if_pos hn]
    · rw [if_neg hn, if_neg hn]
      congr 1
      exact natReprAux_congr m ((m + 1) / 10) ((m + 1) / 10) (by omega)
        (le_refl _)

theorem natRepr_all_digit (n : Nat) :
    ∀ c ∈ natRepr n, c.isDigit = true := by
  induction n using Nat.strong_induction_on with
  | _ n ih =>
    rw [natRepr_eq]
    split
    · rename_i h
      intro c hc
      simp at hc
      subst hc
      exact digit_char_isDigit h
    · rename_i h
      intro c hc
      rw [List.mem_append] at hc
      rcases hc with hc | hc
      · exact ih (n / 10) (by omega) c hc
      · simp at hc
        subst hc
        exact digit_char_isDigit (Nat.mod_lt _ (by norm_num))

theorem natRepr_ne_nil (n : Nat) : natRepr n ≠ [] := by
  rw [natRepr_eq]
  split <;> simp

theorem digitsToNat_append (a : Str) (c : Char) :
    digitsToNat (a ++ [c]) = 10 * digitsToNat a + (c.toNat - 48) := by
  simp [digitsToNat, List.foldl_append]
  omega

theorem digitsToNat_natRepr (n : Nat) : digitsToNat (natRepr n) = n := by
  induction n using Nat.strong_induction_on with
  | _ n ih =>
    rw [natRepr_eq]
    split
    · rename_i h
      simp [digitsToNat, digit_char_toNat h]
    · rename_i h
      rw [digitsToNat_append, ih (n / 10) (by omega),
        digit_char_toNat (Nat.mod_lt _ (by norm_num))]
      omega

theorem numShape?_natRepr (n : Nat) :
    numShape? (natRepr n) = some (false, natRepr n, [], none) := by
  have hd := natRepr_all_digit n
  have h1 : startsWithChar '-' (natRepr n) = false := by
    cases hh : natRepr n with
    | nil => exact absurd hh (natRepr_ne_nil n)
    | cons c t =>
      have hcd : c.isDigit = true := hd c (hh ▸ List.mem_cons_self c t)
      simp only [startsWithChar, decide_eq_false_iff_not]
      intro hc
      subst hc
      exact absurd hcd (by decide)
  simp [numShape?, h1, List.takeWhile_eq_self_iff.mpr hd,
    List.drop_length, natRepr_ne_nil n]

theorem intRepr_nonneg (n : Int) (h : 0 ≤ n) :
    intRepr n = natRepr n.toNat := by
  rw [intRepr, if_neg (by omega)]

theorem intRepr_neg (n : Int) (h : n < 0) :
    intRepr n = '-' :: natRepr n.natAbs := by
  rw [intRepr, if_pos h]

theorem numericValue?_intRepr (n : Int) :
    numericValue? (intRepr n) = some n := by
  by_cases h : n < 0
  · rw [intRepr_neg n h]
    have hshape : numShape? ('-' :: natRepr n.natAbs) =
        some (true, natRepr n.natAbs, [], none) := by
      have hd := natRepr_all_digit n.natAbs
      simp [numShape?, startsWithChar, List.takeWhile_eq_self_iff.mpr hd,
        List.drop_length, natRepr_ne_nil n.natAbs]
    rw [numericValue?, hshape]
    have habs : ((n.natAbs : Int)) = -n :=
      Int.ofNat_natAbs_of_nonpos (by omega)
    simp [digitsToNat_natRepr, habs]
  · rw [intRepr_nonneg n (by omega), numericValue?, numShape?_natRepr]
    have htn : ((n.toNat : Int)) = n := Int.toNat_of_nonneg (by omega)
    simp [digitsToNat_natRepr, htn]

theorem intRepr_head (n : Int) :
    ∃ c t, intRepr n = c :: t ∧ (c = '-' ∨ c.isDigit = true) := by
  by_cases h : n < 0
  · exact ⟨'-', natRepr n.natAbs, intRepr_neg n h, Or.inl rfl⟩
  · rw [intRepr_nonneg n (by omega)]
    cases hh : natRepr n.toNat with
    | nil => exact absurd hh (natRepr_ne_nil _)
    | cons c t =>
      exact ⟨c, t, rfl,
        Or.inr (natRepr_all_digit _ c (hh ▸ List.mem_cons_self c t))⟩

theorem intRepr_ne_cons (n : Int) (c : Char) (t : Str) (hc1 : c ≠ '-')
    (hc2 : c.isDigit = false) : intRepr n ≠ c :: t := by
  obtain ⟨d, u, hdu, hd⟩ := intRepr_head n
  rw [hdu]
  intro heq
  have h1 : d = c := by injection heq
  rcases hd with h' | h'
  · exact hc1 (h1 ▸ h')
  · rw [h1, hc2] at h'
    exact absurd h' (by decide)

theorem mem_of_getLast?_eq {l : List Char} {c : Char}
    (h : l.getLast? = some c) : c ∈ l := by
  have hx : c ∈ l.getLast? := by rw [h]; rfl
  obtain ⟨hne, hlast⟩ := List.mem_getLast?_eq_getLast hx
  rw [hlast]
  exact List.getLast_mem hne

theorem not_ws_of_isDigit {c : Char} (h : c.isDigit = true) :
    isJsWhitespace c = false := by
  by_contra hws
  rw [Bool.not_eq_false] at hws
  simp [isJsWhitespace] at hws
  rcases hws with ((((rfl | rfl) | rfl) | rfl) | rfl) | rfl <;>
    exact absurd h (by decide)

theorem intRepr_last_digit (n : Int) :
    ∀ c, (intRepr n).getLast? = some c → c.isDigit = true := by
  intro c hc
  by_cases h : n < 0
  · rw [intRepr_neg n h] at hc
    cases hh : natRepr n.natAbs with
    | nil => exact absurd hh (natRepr_ne_nil _)
    | cons d t =>
      rw [hh] at hc
      have : ('-' :: d :: t).getLast? = (d :: t).getLast? := rfl
      rw [this] at hc
      have hmem : c ∈ d :: t := mem_of_getLast?_eq hc
      exact natRepr_all_digit _ c (hh ▸ hmem)
  · rw [intRepr_nonneg n (by omega)] at hc
    exact natRepr_all_digit _ c (mem_of_getLast?_eq hc)

theorem jsTrim_intRepr (n : Int) : jsTrim (intRepr n) = intRepr n := by
  apply jsTrim_eq_self
  · intro c hc
    obtain ⟨d, u, hdu, hd⟩ := intRepr_head n
    rw [hdu] at hc
    simp at hc
    subst hc
    rcases hd with h' | h'
    · subst h'; decide
    · exact not_ws_of_isDigit h'
  · intro c hc
    exact not_ws_of_isDigit (intRepr_last_digit n c hc)

/-! ## Lemmas about character containment and quoting -/

theorem contains_iff {s : Str} {c : Char} : s.contains c = true ↔ c ∈ s := by
  simp [List.contains_iff_exists_mem_beq]

theorem contains_eq_false_iff {s : Str} {c : Char} :
    s.contains c = false ↔ c ∉ s := by
  rw [← Bool.not_eq_true, not_iff_not]
  exact contains_iff

theorem startsWithChar_false_of_not_contains {c : Char} {s : Str}
    (h : s.contains c = false) : startsWithChar c s = false := by
  cases s with
  | nil => rfl
  | cons a t =>
    simp only [startsWithChar, decide_eq_false_iff_not]
    intro hac
    subst hac
    rw [contains_eq_false_iff] at h
    exact h (List.mem_cons_self a t)

theorem containsSeq_false_of_char {pat s : Str} {x : Char} (hx : x ∈ pat)
    (h : s.contains x = false) : containsSeq pat s = false := by
  rw [contains_eq_false_iff] at h
  induction s with
  | nil =>
    cases pat with
    | nil => simp at hx
    | cons a q => rfl
  | cons c t ih =>
    have h' : x ∉ t := fun hm => h (List.mem_cons_of_mem c hm)
    simp only [containsSeq, Bool.or_eq_false_iff]
    constructor
    · by_contra hpre
      rw [Bool.not_eq_false, List.isPrefixOf_iff_prefix] at hpre
      obtain ⟨u, hu⟩ := hpre
      apply h
      rw [← hu]
      exact List.mem_append_left u hx
    · exact ih h'

theorem needsQuoting_eq_codeTrigger (s : Str) :
    needsQuoting s = codeQuotingTrigger s := by
  have hempty : s.isEmpty = decide (s = []) := by cases s <;> simp
  unfold needsQuoting codeQuotingTrigger
  rw [hempty]
  split_ifs with h1 h2 h3 h4 h5 h6 h7 h8 <;> simp_all [Bool.or_eq_true]

/-! ## Round-trip of parsePrimitive and formatPrimitive -/

theorem intRepr_ne_dash (n : Int) : intRepr n ≠ ['-'] := by
  by_cases h : n < 0
  · rw [intRepr_neg n h]
    intro he
    injection he with _ h2
    exact natRepr_ne_nil _ h2
  · rw [intRepr_nonneg n (by omega)]
    intro he
    have hm : '-' ∈ natRepr n.toNat := by rw [he]; simp
    have := natRepr_all_digit n.toNat '-' hm
    exact absurd this (by decide)

theorem lookup_rev_none (s : Str) (h1 : s ≠ "✓".data) (h2 : s ≠ "✗".data)
    (h3 : s ≠ "⏳".data) (h4 : s ≠ "⚠".data) (h5 : s ≠ "?".data) :
    REVERSE_SYMBOLS.lookup s = none := by
  have b1 : (s == "✓".data) = false := beq_eq_false_iff_ne.mpr h1
  have b2 : (s == "✗".data) = false := beq_eq_false_iff_ne.mpr h2
  have b3 : (s == "⏳".data) = false := beq_eq_false_iff_ne.mpr h3
  have b4 : (s == "⚠".data) = false := beq_eq_false_iff_ne.mpr h4
  have b5 : (s == "?".data) = false := beq_eq_false_iff_ne.mpr h5
  simp [REVERSE_SYMBOLS, List.lookup, b1, b2, b3, b4, b5]

theorem parsePrimitive_intRepr (n : Int) :
    parsePrimitive (intRepr n) = .jnum n := by
  obtain ⟨d, u, hdu, hd⟩ := intRepr_head n
  have hne : ∀ (c : Char) (t : Str), c ≠ '-' → c.isDigit = false →
      intRepr n ≠ c :: t :=
    fun c t hc1 hc2 => intRepr_ne_cons n c t hc1 hc2
  have h1 : intRepr n ≠ "null".data := by
    rw [data_null]; exact hne 'n' _ (by decide) (by decide)
  have h2 : intRepr n ≠ "-".data := by
    rw [data_dash]; exact intRepr_ne_dash n
  have h3 : intRepr n ≠ [] := by rw [hdu]; simp
  have h4 : intRepr n ≠ "true".data := by
    rw [data_true]; exact hne 't' _ (by decide) (by decide)
  have h5 : intRepr n ≠ "false".data := by
    rw [data_false]; exact hne 'f' _ (by decide) (by decide)
  have h6 : REVERSE_SYMBOLS.lookup (intRepr n) = none := by
    apply lookup_rev_none
    · rw [show "✓".data = ['✓'] from rfl]
      exact hne '✓' _ (by decide) (by decide)
    · rw [show "✗".data = ['✗'] from rfl]
      exact hne '✗' _ (by decide) (by decide)
    · rw [show "⏳".data = ['⏳'] from rfl]
      exact hne '⏳' _ (by decide) (by decide)
    · rw [show "⚠".data = ['⚠'] from rfl]
      exact hne '⚠' _ (by decide) (by decide)
    · rw [show "?".data = ['?'] from rfl]
      exact hne '?' _ (by decide) (by decide)
  have h7 : startsWithChar '"' (intRepr n) = false := by
    rw [hdu]
    simp only [startsWithChar, decide_eq_false_iff_not]
    intro hq
    subst hq
    rcases hd with h' | h'
    · exact absurd h' (by decide)
    · exact absurd h' (by decide)
  unfold parsePrimitive
  rw [jsTrim_intRepr]
  simp [h1, h2, h3, h4, h5, h6, h7, numericValue?_intRepr]

theorem parsePrimitive_quoted (s : Str) (h : '\\' ∉ s) :
    parsePrimitive ('"' :: escapeString s ++ ['"']) = .jstr s := by
  have hassoc : '"' :: escapeString s ++ ['"'] =
      ('"' :: escapeString s) ++ ['"'] := rfl
  have hlast : ('"' :: escapeString s ++ ['"']).getLast? = some '"' := by
    rw [hassoc]
    exact List.getLast?_concat _
  have htrim : jsTrim ('"' :: escapeString s ++ ['"']) =
      '"' :: escapeString s ++ ['"'] := by
    apply jsTrim_eq_self
    · intro c hc
      simp at hc
      subst hc
      decide
    · intro c hc
      rw [hlast] at hc
      injection hc with hc
      subst hc
      decide
  have hhead : ∀ (c : Char) (t : Str), c ≠ '"' →
      '"' :: escapeString s ++ ['"'] ≠ c :: t := by
    intro c t hc he
    injection he with he1 _
    exact hc he1.symm
  have h1 : '"' :: escapeString s ++ ['"'] ≠ "null".data := by
    rw [data_null]; exact hhead 'n' _ (by decide)
  have h2 : '"' :: escapeString s ++ ['"'] ≠ "-".data := by
    rw [data_dash]; exact hhead '-' _ (by decide)
  have h3 : '"' :: escapeString s ++ ['"'] ≠ [] := by simp
  have h4 : '"' :: escapeString s ++ ['"'] ≠ "true".data := by
    rw [data_true]; exact hhead 't' _ (by decide)
  have h5 : '"' :: escapeString s ++ ['"'] ≠ "false".data := by
    rw [data_false]; exact hhead 'f' _ (by decide)
  have h6 : REVERSE_SYMBOLS.lookup ('"' :: escapeString s ++ ['"']) =
      none := by
    apply lookup_rev_none
    · rw [show "✓".data = ['✓'] from rfl]; exact hhead '✓' _ (by decide)
    · rw [show "✗".data = ['✗'] from rfl]; exact hhead '✗' _ (by decide)
    · rw [show "⏳".data = ['⏳'] from rfl]; exact hhead '⏳' _ (by decide)
    · rw [show "⚠".data = ['⚠'] from rfl]; exact hhead '⚠' _ (by decide)
    · rw [show "?".data = ['?'] from rfl]; exact hhead '?' _ (by decide)
  have hstart : startsWithChar '"' ('"' :: escapeString s ++ ['"']) =
      true := by simp [startsWithChar]
  have hend : endsWithChar '"' ('"' :: escapeString s ++ ['"']) = true := by
    unfold endsWithChar
    rw [hlast]
    rfl
  have hinner : (('"' :: escapeString s ++ ['"']).drop 1).dropLast =
      escapeString s := by
    show (('"' :: (escapeString s ++ ['"'])).drop 1).dropLast =
      escapeString s
    simp only [List.drop_succ_cons, List.drop_zero]
    exact List.dropLast_concat ..
  simp only [List.cons_append] at htrim h1 h2 h3 h4 h5 h6 hstart hend hinner ⊢
  unfold parsePrimitive
  rw [htrim]
  simp [h1, h2, h3, h4, h5]
  rw [h6]
  simp [hstart, hend, hinner, unescape_escape h]

theorem parsePrimitive_unquoted (s : Str)
    (htrim : jsTrim s = s)
    (hnq : needsQuoting s = false)
    (hdash : s ≠ "-".data)
    (hrev : REVERSE_SYMBOLS.lookup s = none)
    (hshape : numShape? s = none) :
    parsePrimitive s = .jstr s := by
  have htrig : codeQuotingTrigger s = false := by
    rw [← needsQuoting_eq_codeTrigger]; exact hnq
  have hne_nil : s ≠ [] := by
    rintro rfl; exact absurd htrig (by decide)
  have hne_null : s ≠ "null".data := by
    rintro rfl; exact absurd htrig (by decide)
  have hne_true : s ≠ "true".data := by
    rintro rfl; exact absurd htrig (by decide)
  have hne_false : s ≠ "false".data := by
    rintro rfl; exact absurd htrig (by decide)
  have hdq : '"' ∉ s := by
    rw [codeQuotingTrigger] at htrig
    simp at htrig
    exact htrig.2
  have hstart : startsWithChar '"' s = false :=
    startsWithChar_false_of_not_contains (contains_eq_false_iff.mpr hdq)
  have hnv : numericValue? s = none := by rw [numericValue?, hshape]
  unfold parsePrimitive
  rw [htrim]
  simp [hne_nil, hne_null, hne_true, hne_false, hdash, hrev, hstart, hnv]

/-! ## Lemmas about jsObjSet -/

theorem jsObjSet_append (acc : List (Str × JVal)) (k : Str) (v : JVal)
    (h : k ∉ acc.map Prod.fst) : jsObjSet acc k v = acc ++ [(k, v)] := by
  induction acc with
  | nil => rfl
  | cons p rest ih =>
    obtain ⟨k', v'⟩ := p
    simp only [List.map_cons, List.mem_cons] at h
    push_neg at h
    rw [jsObjSet, if_neg (fun he => h.1 he.symm), ih h.2]
    rfl

theorem foldl_jsObjSet_eq_append (ps : List (Str × JVal)) :
    ∀ acc : List (Str × JVal),
    (∀ p ∈ ps, p.1 ∉ acc.map Prod.fst) → (ps.map Prod.fst).Nodup →
    ps.foldl (fun a hc => jsObjSet a hc.1 hc.2) acc = acc ++ ps := by
  induction ps with
  | nil => intro acc _ _; simp
  | cons p rest ih =>
    intro acc hdisj hnodup
    obtain ⟨k, v⟩ := p
    simp only [List.foldl_cons]
    rw [jsObjSet_append acc k v (hdisj (k, v) (List.mem_cons_self _ _))]
    rw [ih (acc ++ [(k, v)]) ?disj ?nodup]
    · simp
    case disj =>
      intro q hq
      simp only [List.map_append, List.mem_append] at *
      push_neg
      constructor
      · exact hdisj q (List.mem_cons_of_mem _ hq)
      · simp only [List.map_cons, List.map_nil, List.mem_singleton]
        intro he
        simp only [List.map_cons, List.nodup_cons] at hnodup
        exact hnodup.1 (he ▸ List.mem_map_of_mem Prod.fst hq)
    case nodup =>
      simp only [List.map_cons, List.nodup_cons] at hnodup
      exact hnodup.2

/-! ## Claim theorems: quoting and primitives -/

/-- C3 (counterexample): the string `-` is not a compact-mode keyword and
does not collide with `true`/`false`/`null` or a numeric shape, yet
`parsePrimitive (formatPrimitive "-" opts)` returns null, not `-`:
the round-trip fails. -/
theorem c3_counterexample :
    STATUS_SYMBOLS.lookup (toLowerStr "-".data) = none ∧
    toLowerStr "-".data ≠ "true".data ∧
    toLowerStr "-".data ≠ "false".data ∧
    toLowerStr "-".data ≠ "null".data ∧
    numShape? "-".data = none ∧ isPlainDecimal "-".data = false ∧
    parsePrimitive (formatPrimitive (.jstr "-".data) {} false) ≠
      .jstr "-".data := by
  refine ⟨by decide, by decide, by decide, by decide, by decide, by decide,
    ?_⟩
  have : parsePrimitive (formatPrimitive (.jstr "-".data) {} false) =
      .jnull := rfl
  rw [this]
  simp

/-- C3 (amended): `parsePrimitive (formatPrimitive s opts) = s` for every
string `s` that is not a compact-mode keyword, contains no backslash and —
whenever the quoting rule does not fire — is trim-stable and collides with
none of `-`, the reverse compact symbols, or the parser's numeric shape. -/
theorem c3_quoting_roundtrip_amended (s : Str) (opts : EncodeOptions)
    (hkw : STATUS_SYMBOLS.lookup (toLowerStr s) = none)
    (hbs : '\\' ∉ s)
    (hsafe : needsQuoting s = true ∨
      (jsTrim s = s ∧ s ≠ "-".data ∧
       REVERSE_SYMBOLS.lookup s = none ∧ numShape? s = none)) :
    parsePrimitive (formatPrimitive (.jstr s) opts false) = .jstr s := by
  have hlookup : (if opts.compact then
      STATUS_SYMBOLS.lookup (toLowerStr s) else none) = none := by
    cases opts.compact <;> simp [hkw]
  simp only [formatPrimitive]
  rw [hlookup]
  by_cases hq : needsQuoting s = true
  · simp only [hq, Bool.and_false, Bool.false_eq_true, if_false, if_true]
    exact parsePrimitive_quoted s hbs
  · rw [Bool.not_eq_true] at hq
    rcases hsafe with hq' | ⟨ht, hd, hr, hn⟩
    · exact absurd hq' (by simp [hq])
    · simp only [hq, Bool.and_false, Bool.false_eq_true, if_false]
      exact parsePrimitive_unquoted s ht hq hd hr hn

/-- C3 (witness): the amended round-trip at the quoted string
`Hello, World!`. -/
theorem c3_quoting_roundtrip_amended_witness :
    STATUS_SYMBOLS.lookup (toLowerStr "Hello, World!".data) = none ∧
    '\\' ∉ "Hello, World!".data ∧
    needsQuoting "Hello, World!".data = true ∧
    parsePrimitive (formatPrimitive (.jstr "Hello, World!".data) {} false) =
      .jstr "Hello, World!".data :=
  ⟨by decide, by decide, by decide,
   c3_quoting_roundtrip_amended "Hello, World!".data {} (by decide)
     (by decide) (Or.inl (by decide))⟩

/-- C7 (counterexample): `a://b:c` contains a colon (`:c`) that is not
part of a `://` substring, so the spec's trigger list fires, yet
`needsQuoting` returns false because the code's clause only asks whether
`://` occurs anywhere. -/
theorem c7_counterexample :
    hasBareColon "a://b:c".data = true ∧
    specQuotingTrigger "a://b:c".data = true ∧
    needsQuoting "a://b:c".data = false :=
  ⟨by decide, by decide, by decide⟩

/-- C7 (amended): `needsQuoting` returns true exactly when one of the
spec's triggers holds, with the colon clause read as the code implements
it: the string contains a colon and does not contain `://` anywhere. -/
theorem c7_needsQuoting_triggers (s : Str) :
    needsQuoting s = codeQuotingTrigger s :=
  needsQuoting_eq_codeTrigger s

/-- C8: in a table cell position both null and the empty string are
formatted as `-`, and the cell text `-` always parses to null. -/
theorem c8_null_normalization (opts : EncodeOptions) :
    formatPrimitive .jnull opts true = "-".data ∧
    formatPrimitive (.jstr []) opts true = "-".data ∧
    parsePrimitive "-".data = .jnull := by
  refine ⟨rfl, ?_, rfl⟩
  obtain ⟨i, cpt, sk⟩ := opts
  cases cpt <;> rfl

/-- C9: `validate` is a total function returning a structured result, and
its `valid` flag is true exactly when the accumulated error list is
empty. -/
theorem c9_validate_total (input : Str) :
    (validate input).valid = true ↔ (validate input).errors = [] := by
  unfold validate
  simp [List.length_eq_zero]

/-! ## Claim theorems: the table sub-parser -/

/-- C5 (counterexample): a blank line terminates a table block.  On the
four lines `| a |`, `| 1 |`, (blank), `| 2 |` the table sub-parser stops
at the blank line: only the row before it is produced, and the post-blank
row line is left unconsumed. -/
theorem c5_counterexample :
    (parseTable ["| a |".data, "| 1 |".data, [], "| 2 |".data] 0).1 =
      [.jobj [("a".data, .jnum 1)]] ∧
    (parseTable ["| a |".data, "| 1 |".data, [], "| 2 |".data] 0).2 =
      [[], "| 2 |".data] :=
  ⟨rfl, rfl⟩

/-- C5 (amended): the table row loop consumes lines only while they start
(after trim) with `|`; a blank line does not start with `|`, so it
terminates the table immediately and later rows are not included. -/
theorem c5_blank_terminates (headers : List Str) (indent : Nat)
    (line : Str) (rest : List Str) (h : jsTrim line = []) :
    parseTableRows headers indent (line :: rest) = ([], line :: rest) := by
  unfold parseTableRows
  rw [h]
  simp [startsWithChar]

/-- C5 (witness): the amended statement at a concrete blank line. -/
theorem c5_blank_terminates_witness :
    jsTrim ([] : Str) = [] ∧
    parseTableRows ["a".data] 0 ([] :: ["| 2 |".data]) =
      ([], [] :: ["| 2 |".data]) :=
  ⟨rfl, c5_blank_terminates ["a".data] 0 [] ["| 2 |".data] rfl⟩

theorem parseTableRows_cons_eq (headers : List Str) (indent : Nat)
    (line : Str) (rest : List Str) :
    parseTableRows headers indent (line :: rest) =
      (let trimmed := jsTrim line
       if !startsWithChar '|' trimmed then ([], line :: rest)
       else if lineIndentOf line < indent && trimmed ≠ [] then
         ([], line :: rest)
       else
         let cells := (((splitOn "|".data trimmed).drop 1).dropLast).map
           (fun c => parsePrimitive (jsTrim c))
         let res := parseTableRows headers indent rest
         if cells.length = headers.length then
           (.jobj ((headers.zip cells).foldl
             (fun acc hc => jsObjSet acc hc.1 hc.2) []) :: res.1, res.2)
         else res) := rfl

theorem parseTableRows_keys (headers : List Str) (indent : Nat)
    (hnodup : headers.Nodup) :
    ∀ (lines : List Str), ∀ r ∈ (parseTableRows headers indent lines).1,
      rowKeys r = headers := by
  intro lines
  induction lines with
  | nil =>
    intro r hr
    have h0 : parseTableRows headers indent [] = ([], []) := rfl
    rw [h0] at hr
    simp at hr
  | cons line rest ih =>
    intro r hr
    rw [parseTableRows_cons_eq] at hr
    simp only [] at hr
    split at hr
    · simp at hr
    · split at hr
      · simp at hr
      · split at hr
        · rename_i h3
          rcases List.mem_cons.mp hr with hr1 | hr2
          · subst hr1
            unfold rowKeys
            rw [foldl_jsObjSet_eq_append _ [] (by simp) ?nodup]
            · rw [List.nil_append]
              exact List.map_fst_zip headers _ (le_of_eq h3.symm)
            case nodup =>
              rw [List.map_fst_zip headers _ (le_of_eq h3.symm)]
              exact hnodup
          · exact ih r hr2
        · exact ih r hr

/-- C6 (counterexample): with duplicate header names `a`, `a` the decoder
produces a row with a single key, not the header's column count of two:
later assignments to the same key overwrite instead of adding a column. -/
theorem c6_counterexample :
    (tableHeaders ["| a | a |".data, "| 1 | 2 |".data]).length = 2 ∧
    (parseTable ["| a | a |".data, "| 1 | 2 |".data] 0).1 =
      [.jobj [("a".data, .jnum 2)]] ∧
    (rowKeys (.jobj [("a".data, .jnum 2)])).length = 1 :=
  ⟨rfl, rfl, rfl⟩

/-- C6 (amended): when the header names are pairwise distinct, every row
object produced by the table decoder has exactly the header's key list
(and hence the header's column count); rows whose cell count differs are
silently excluded, never an error. -/
theorem c6_row_keys (lines : List Str) (indent : Nat)
    (hnodup : (tableHeaders lines).Nodup) :
    ∀ r ∈ (parseTable lines indent).1, rowKeys r = tableHeaders lines := by
  cases lines with
  | nil =>
    intro r hr
    have h0 : parseTable [] indent = ([], []) := rfl
    rw [h0] at hr
    simp at hr
  | cons header rest =>
    have htH : tableHeaders (header :: rest) =
        (let headerLine := jsTrim header
         if !startsWithChar '|' headerLine then []
         else (((splitOn "|".data headerLine).drop 1).dropLast).map
           jsTrim) := rfl
    have htP : parseTable (header :: rest) indent =
        (let headerLine := jsTrim header
         if !startsWithChar '|' headerLine then ([], header :: rest)
         else
           parseTableRows
             ((((splitOn "|".data headerLine).drop 1).dropLast).map jsTrim)
             indent rest) := rfl
    rw [htH] at hnodup ⊢
    rw [htP]
    simp only [] at hnodup ⊢
    by_cases h1 : (!startsWithChar '|' (jsTrim header)) = true
    · simp only [if_pos h1]
      intro r hr
      simp at hr
    · simp only [if_neg h1] at hnodup ⊢
      intro r hr
      exact parseTableRows_keys _ indent hnodup rest r hr

/-! ## Claim theorems: the strict option -/

theorem parseDoc_cons_eq (options : DecodeOptions) (fuel : Nat)
    (acc : List (Str × JVal)) (line : Str) (rest : List Str)
    (baseIndent : Nat) :
    parseDoc options (fuel + 1) acc (line :: rest) baseIndent =
      (if isBlankOrComment line then parseDoc options fuel acc rest baseIndent
       else if lineIndentOf line < baseIndent then (acc, line :: rest)
       else if lineIndentOf line > baseIndent then
         parseDoc options fuel acc rest baseIndent
       else
         let trimmed := jsTrim line
         if startsWithChar '|' trimmed then
           parseDoc options fuel acc rest baseIndent
         else
           match idxOf? ':' trimmed with
           | none => parseDoc options fuel acc rest baseIndent
           | some colonIndex =>
             let key := jsTrim (trimmed.take colonIndex)
             let valueStr := jsTrim (trimmed.drop (colonIndex + 1))
             if valueStr = [] || valueStr = "[]".data then
               let after := rest.dropWhile (fun l => jsTrim l = [])
               let emptyVal : JVal :=
                 if valueStr = "[]".data then .jarr [] else .jobj []
               match after with
               | [] =>
                 parseDoc options fuel (jsObjSet acc key emptyVal) rest
                   baseIndent
               | next :: _ =>
                 let nextIndent := lineIndentOf next
                 let nextTrimmed := jsTrim next
                 if nextIndent > baseIndent &&
                     startsWithChar '|' nextTrimmed then
                   let tres := parseTable after nextIndent
                   parseDoc options fuel (jsObjSet acc key (.jarr tres.1))
                     tres.2 baseIndent
                 else if nextIndent > baseIndent && nextTrimmed ≠ [] &&
                     !startsWithChar '#' nextTrimmed then
                   let nres := parseDoc options fuel [] after nextIndent
                   parseDoc options fuel (jsObjSet acc key (.jobj nres.1))
                     nres.2 baseIndent
                 else
                   parseDoc options fuel (jsObjSet acc key emptyVal) rest
                     baseIndent
             else if startsWithChar '"' valueStr &&
                 endsWithChar '"' valueStr then
               parseDoc options fuel
                 (jsObjSet acc key (parsePrimitive valueStr)) rest baseIndent
             else if containsSeq " | ".data valueStr then
               parseDoc options fuel
                 (jsObjSet acc key
                   (.jarr ((splitOn " | ".data valueStr).map
                     (fun v => parsePrimitive (jsTrim v))))) rest baseIndent
             else if containsSeq ", ".data valueStr then
               parseDoc options fuel
                 (jsObjSet acc key
                   (.jarr ((splitOn ", ".data valueStr).map
                     (fun v => parsePrimitive (jsTrim v))))) rest baseIndent
             else
               parseDoc options fuel
                 (jsObjSet acc key (parsePrimitive valueStr)) rest
                   baseIndent) := rfl

theorem parseDoc_options_indep (fuel : Nat) :
    ∀ (o1 o2 : DecodeOptions) (acc : List (Str × JVal))
      (lines : List Str) (base : Nat),
      parseDoc o1 fuel acc lines base = parseDoc o2 fuel acc lines base := by
  induction fuel with
  | zero => intro o1 o2 acc lines base; rfl
  | succ f ih =>
    intro o1 o2 acc lines base
    cases lines with
    | nil => rfl
    | cons line rest =>
      rw [parseDoc_cons_eq, parseDoc_cons_eq]
      simp only [ih o1 o2]

/-- C4: the strict decode option has no effect: for every input text and
indent option, decoding with strict mode enabled returns the same value
as decoding with strict mode disabled. -/
theorem c4_strict_no_effect (input : Str) (n : Nat) :
    decode input ⟨true, n⟩ = decode input ⟨false, n⟩ := by
  unfold decode
  simp only [parseDoc_options_indep _ ⟨true, n⟩ ⟨false, n⟩]

/-- C10: decode never returns a primitive: every decoded result is an
object or an array, and a document that is a single primitive literal
with no colon (`null`, `42`) decodes to the empty object, so root-level
primitives do not round-trip through encode then decode. -/
theorem c10_decode_shape :
    (∀ (input : Str) (opts : DecodeOptions),
      isObjOrArr (decode input opts) = true) ∧
    decode "null".data {} = .jobj [] ∧ decode "42".data {} = .jobj [] := by
  refine ⟨?_, rfl, rfl⟩
  intro input opts
  unfold decode
  dsimp only
  repeat' split
  all_goals rfl

/-- C6 (witness): the amended statement at a concrete two-column table. -/
theorem c6_row_keys_witness :
    (tableHeaders ["| a | b |".data, "| 1 | 2 |".data]).Nodup ∧
    ∀ r ∈ (parseTable ["| a | b |".data, "| 1 | 2 |".data] 0).1,
      rowKeys r = tableHeaders ["| a | b |".data, "| 1 | 2 |".data] :=
  ⟨by decide, c6_row_keys ["| a | b |".data, "| 1 | 2 |".data] 0
    (by decide)⟩

/-! ## Lemmas about splitOn and line assembly -/

theorem splitOnAux_congr (sep : Str) :
    ∀ (f1 : Nat) (s : Str) (f2 : Nat), s.length ≤ f1 → s.length ≤ f2 →
      splitOnAux sep f1 s = splitOnAux sep f2 s := by
  intro f1
  induction f1 with
  | zero =>
    intro s f2 h1 _
    have hs : s = [] := List.eq_nil_of_length_eq_zero (Nat.le_zero.mp h1)
    subst hs
    cases f2 <;> rfl
  | succ f ih =>
    intro s f2 h1 h2
    cases s with
    | nil => cases f2 <;> rfl
    | cons c rest =>
      cases f2 with
      | zero => simp at h2
      | succ g =>
        simp only [splitOnAux]
        simp only [List.length_cons] at h1 h2
        by_cases hc : sep ≠ [] ∧ sep.isPrefixOf (c :: rest) = true
        · rw [if_pos hc, if_pos hc]
          have hpat : sep.length ≥ 1 := by
            cases sep with
            | nil => exact absurd rfl hc.1
            | cons x xs => simp
          rw [ih ((c :: rest).drop sep.length) g
            (by simp only [List.length_drop, List.length_cons]; omega)
            (by simp only [List.length_drop, List.length_cons]; omega)]
        · rw [if_neg hc, if_neg hc, ih rest g (by omega) (by omega)]

theorem splitOn_nil (sep : Str) : splitOn sep [] = [[]] := rfl

theorem splitOn_cons_eq (sep : Str) (c : Char) (t : Str) :
    splitOn sep (c :: t) =
      if sep ≠ [] ∧ sep.isPrefixOf (c :: t) = true then
        [] :: splitOn sep ((c :: t).drop sep.length)
      else
        match splitOn sep t with
        | [] => [[c]]
        | h :: t' => (c :: h) :: t' := by
  show splitOnAux sep (t.length + 1) (c :: t) = _
  simp only [splitOnAux]
  by_cases hc : sep ≠ [] ∧ sep.isPrefixOf (c :: t) = true
  · rw [if_pos hc, if_pos hc]
    have hpat : sep.length ≥ 1 := by
      cases sep with
      | nil => exact absurd rfl hc.1
      | cons x xs => simp
    rw [splitOnAux_congr sep (t.length) _ (((c :: t).drop sep.length).length)
      (by simp only [List.length_drop, List.length_cons]; omega)
      (le_refl _)]
    rfl
  · rw [if_neg hc, if_neg hc]
    rfl

theorem splitOn_ne_nil (sep : Str) (s : Str) : splitOn sep s ≠ [] := by
  cases s with
  | nil => simp [splitOn_nil]
  | cons c t =>
    rw [splitOn_cons_eq]
    split
    · simp
    · split <;> simp

theorem splitOn_not_mem (c : Char) (s : Str) (h : c ∉ s) :
    splitOn [c] s = [s] := by
  induction s with
  | nil => rfl
  | cons d t ih =>
    have hd : d ≠ c := fun he => h (he ▸ List.mem_cons_self d t)
    have ht : c ∉ t := fun hm => h (List.mem_cons_of_mem d hm)
    rw [splitOn_cons_eq, if_neg ?hneg, ih ht]
    case hneg =>
      rintro ⟨_, hpre⟩
      simp [List.isPrefixOf] at hpre
      exact hd hpre.symm

theorem splitOn_append_sep (c : Char) (a b : Str) (ha : c ∉ a) :
    splitOn [c] (a ++ c :: b) = a :: splitOn [c] b := by
  induction a with
  | nil =>
    rw [List.nil_append, splitOn_cons_eq,
      if_pos ⟨by simp, by simp [List.isPrefixOf]⟩]
    rfl
  | cons d a' ih =>
    have hd : d ≠ c := fun he => ha (he ▸ List.mem_cons_self d a')
    have ha' : c ∉ a' := fun hm => ha (List.mem_cons_of_mem d hm)
    rw [List.cons_append, splitOn_cons_eq, if_neg ?hneg, ih ha']
    case hneg =>
      rintro ⟨_, hpre⟩
      simp [List.isPrefixOf] at hpre
      exact hd hpre.symm

theorem intercalate_cons₂ (sep : Str) (a b : Str) (t : List Str) :
    List.intercalate sep (a :: b :: t) =
      a ++ sep ++ List.intercalate sep (b :: t) := by
  simp [List.intercalate, List.intersperse]

theorem splitOn_intercalate (c : Char) (ls : List Str)
    (h : ∀ l ∈ ls, c ∉ l) (hne : ls ≠ []) :
    splitOn [c] (List.intercalate [c] ls) = ls := by
  induction ls with
  | nil => exact absurd rfl hne
  | cons x t ih =>
    cases t with
    | nil =>
      rw [show List.intercalate [c] [x] = x by simp [List.intercalate]]
      exact splitOn_not_mem c x (h x (List.mem_cons_self x []))
    | cons y t' =>
      rw [intercalate_cons₂]
      have hx : c ∉ x := h x (List.mem_cons_self x _)
      have hrest : ∀ l ∈ y :: t', c ∉ l :=
        fun l hl => h l (List.mem_cons_of_mem x hl)
      have hshape : x ++ [c] ++ List.intercalate [c] (y :: t') =
          x ++ c :: List.intercalate [c] (y :: t') := by
        rw [List.append_assoc]
        rfl
      rw [hshape, splitOn_append_sep c x _ hx,
        ih hrest (by simp)]

theorem idxOf?_append_colon (k : Str) (t : Str) (hk : ':' ∉ k) :
    idxOf? ':' (k ++ ':' :: t) = some k.length := by
  induction k with
  | nil => simp [idxOf?]
  | cons a k' ih =>
    have ha : a ≠ ':' := fun he => hk (he ▸ List.mem_cons_self a k')
    have hk' : ':' ∉ k' := fun hm => hk (List.mem_cons_of_mem a hm)
    rw [List.cons_append, idxOf?, if_neg ha, ih hk']
    rfl

theorem replaceSub_of_head_not_mem (pat rep : Str) (c : Char)
    (hp : pat.head? = some c) (s : Str) (h : c ∉ s) :
    replaceSub pat rep s = s := by
  induction s with
  | nil => rfl
  | cons d t ih =>
    have hd : d ≠ c := fun he => h (he ▸ List.mem_cons_self d t)
    have ht : c ∉ t := fun hm => h (List.mem_cons_of_mem d hm)
    rw [replaceSub_cons_eq, if_neg ?hneg, ih ht]
    case hneg =>
      rintro ⟨hne, hpre⟩
      cases pat with
      | nil => exact hne rfl
      | cons p ps =>
        injection hp with hp
        subst hp
        simp [List.isPrefixOf] at hpre
        exact hd hpre.1.symm

theorem normalizeNewlines_id (s : Str) (h : '\r' ∉ s) :
    normalizeNewlines s = s := by
  unfold normalizeNewlines
  rw [replaceSub_of_head_not_mem _ _ '\r' (by rw [data_crnl]; rfl) s h,
    replaceSub_of_head_not_mem _ _ '\r' (by rw [data_cr]; rfl) s h]

theorem escapeString_no_nl_cr (s : Str) :
    ∀ c ∈ escapeString s, c ≠ '\n' ∧ c ≠ '\r' := by
  induction s with
  | nil => rw [escapeString_nil]; simp
  | cons c t ih =>
    rw [escapeString_cons]
    intro d hd
    rw [List.mem_append] at hd
    rcases hd with hd | hd
    · revert hd
      unfold escChar
      split_ifs with h1 h2 h3 h4 h5 <;> intro hd <;> simp at hd
      · rcases hd with rfl | rfl <;> exact ⟨by decide, by decide⟩
      · rcases hd with rfl | rfl <;> exact ⟨by decide, by decide⟩
      · rcases hd with rfl | rfl <;> exact ⟨by decide, by decide⟩
      · rcases hd with rfl | rfl <;> exact ⟨by decide, by decide⟩
      · rcases hd with rfl | rfl <;> exact ⟨by decide, by decide⟩
      · subst hd; exact ⟨h3, h4⟩
    · exact ih d hd

theorem jsTrim_cons_space (w : Str) : jsTrim (' ' :: w) = jsTrim w := by
  rw [jsTrim, jsTrimStart_cons_of_pos w (by decide)]
  rfl

/-! ## Facts about formatted scalar values -/

theorem intRepr_chars (n : Int) :
    ∀ c ∈ intRepr n, c = '-' ∨ c.isDigit = true := by
  intro c hc
  by_cases h : n < 0
  · rw [intRepr_neg n h] at hc
    rcases List.mem_cons.mp hc with rfl | hm
    · exact Or.inl rfl
    · exact Or.inr (natRepr_all_digit _ c hm)
  · rw [intRepr_nonneg n (by omega)] at hc
    exact Or.inr (natRepr_all_digit _ c hc)

theorem jsTrim_quoted (s : Str) :
    jsTrim ('"' :: escapeString s ++ ['"']) =
      '"' :: escapeString s ++ ['"'] := by
  apply jsTrim_eq_self
  · intro c hc
    simp at hc
    subst hc
    decide
  · intro c hc
    have hassoc : '"' :: escapeString s ++ ['"'] =
        ('"' :: escapeString s) ++ ['"'] := rfl
    rw [hassoc, List.getLast?_concat] at hc
    injection hc with hc
    subst hc
    decide

theorem codeTrigger_false_facts (s : Str)
    (h : codeQuotingTrigger s = false) :
    s ≠ [] ∧ '|' ∉ s ∧ '\n' ∉ s ∧ '\r' ∉ s ∧ ',' ∉ s ∧ '"' ∉ s := by
  rw [codeQuotingTrigger] at h
  simp at h
  obtain ⟨⟨⟨⟨⟨⟨⟨⟨⟨⟨⟨⟨hnil, hsw⟩, hew⟩, hpipe⟩, hnl⟩, hcr⟩, hcomma⟩,
    hdec⟩, ht⟩, hf⟩, hn⟩, hcolon⟩, hdq⟩ := h
  exact ⟨hnil, hpipe, hnl, hcr, hcomma, hdq⟩

theorem formatted_safeScalar_facts (v : JVal)
    (hsafe : safeScalar v = true) :
    formatPrimitive v {} false ≠ [] ∧
    formatPrimitive v {} false ≠ "[]".data ∧
    jsTrim (formatPrimitive v {} false) = formatPrimitive v {} false ∧
    (∀ c ∈ formatPrimitive v {} false, c ≠ '\n' ∧ c ≠ '\r') ∧
    ((startsWithChar '"' (formatPrimitive v {} false) &&
      endsWithChar '"' (formatPrimitive v {} false)) = true ∨
     (containsSeq " | ".data (formatPrimitive v {} false) = false ∧
      containsSeq ", ".data (formatPrimitive v {} false) = false)) ∧
    parsePrimitive (formatPrimitive v {} false) = v := by
  cases v with
  | jnull =>
    exact ⟨by decide, by decide, by decide, by decide,
      Or.inr ⟨by decide, by decide⟩, rfl⟩
  | jbool b =>
    cases b <;>
      exact ⟨by decide, by decide, by decide, by decide,
        Or.inr ⟨by decide, by decide⟩, rfl⟩
  | jnum n =>
    have hw : formatPrimitive (.jnum n) {} false = intRepr n := rfl
    rw [hw]
    have hchars := intRepr_chars n
    have hnotchar : ∀ x : Char, x ≠ '-' → x.isDigit = false → x ∉ intRepr n := by
      intro x hx1 hx2 hm
      rcases hchars x hm with h | h
      · exact hx1 h
      · rw [hx2] at h; exact absurd h (by decide)
    refine ⟨?_, ?_, jsTrim_intRepr n, ?_, Or.inr ⟨?_, ?_⟩,
      parsePrimitive_intRepr n⟩
    · obtain ⟨d, u, hdu, _⟩ := intRepr_head n
      rw [hdu]; simp
    · rw [data_brackets]
      exact intRepr_ne_cons n '[' _ (by decide) (by decide)
    · intro c hc
      rcases hchars c hc with rfl | hd
      · exact ⟨by decide, by decide⟩
      · constructor
        · intro he; subst he; exact absurd hd (by decide)
        · intro he; subst he; exact absurd hd (by decide)
    · exact containsSeq_false_of_char (x := '|') (by rw [data_pipesp]; simp)
        (contains_eq_false_iff.mpr (hnotchar '|' (by decide) (by decide)))
    · exact containsSeq_false_of_char (x := ',') (by rw [data_commasp]; simp)
        (contains_eq_false_iff.mpr (hnotchar ',' (by decide) (by decide)))
  | jstr s =>
    have hs : safeScalarString s = true := hsafe
    rw [safeScalarString, Bool.and_eq_true, Bool.or_eq_true] at hs
    obtain ⟨hbs', hrest⟩ := hs
    have hbs : '\\' ∉ s :=
      contains_eq_false_iff.mp (by rwa [Bool.not_eq_true'] at hbs')
    by_cases hq : needsQuoting s = true
    · have hw : formatPrimitive (.jstr s) {} false =
          '"' :: escapeString s ++ ['"'] := by
        have h0 : formatPrimitive (.jstr s) {} false =
            (if s = [] && false then "-".data
             else if needsQuoting s then '"' :: escapeString s ++ ['"']
             else s) := rfl
        rw [h0]
        simp [hq]
      rw [hw]
      have hassoc : '"' :: escapeString s ++ ['"'] =
          ('"' :: escapeString s) ++ ['"'] := rfl
      refine ⟨by simp, ?_, jsTrim_quoted s, ?_, Or.inl ?_,
        parsePrimitive_quoted s hbs⟩
      · rw [data_brackets]
        intro he
        injection he with h1 _
        exact absurd h1 (by decide)
      · intro c hc
        rcases List.mem_cons.mp hc with rfl | hm
        · exact ⟨by decide, by decide⟩
        · rcases List.mem_append.mp hm with hm | hm
          · exact escapeString_no_nl_cr s c hm
          · simp at hm; subst hm; exact ⟨by decide, by decide⟩
      · rw [Bool.and_eq_true]
        constructor
        · rfl
        · rw [endsWithChar, hassoc, List.getLast?_concat]
          rfl
    · rcases hrest with hq' | hrest
      · exact absurd hq' hq
      · simp only [Bool.and_eq_true, beq_iff_eq, decide_eq_true_eq,
          Option.isNone_iff_eq_none] at hrest
        obtain ⟨⟨⟨⟨htrim, hdash⟩, hbrk⟩, hrev⟩, hshape⟩ := hrest
        rw [Bool.not_eq_true] at hq
        have htrig : codeQuotingTrigger s = false := by
          rw [← needsQuoting_eq_codeTrigger]; exact hq
        obtain ⟨hnil, hpipe, hnl, hcr, hcomma, hdq⟩ :=
          codeTrigger_false_facts s htrig
        have hw : formatPrimitive (.jstr s) {} false = s := by
          have h0 : formatPrimitive (.jstr s) {} false =
              (if s = [] && false then "-".data
               else if needsQuoting s then '"' :: escapeString s ++ ['"']
               else s) := rfl
          rw [h0]
          simp [hq]
        rw [hw]
        refine ⟨hnil, hbrk, htrim, ?_, Or.inr ⟨?_, ?_⟩,
          parsePrimitive_unquoted s htrim hq hdash hrev hshape⟩
        · intro c hc
          constructor
          · intro he; subst he; exact hnl hc
          · intro he; subst he; exact hcr hc
        · exact containsSeq_false_of_char (x := '|')
            (by rw [data_pipesp]; simp) (contains_eq_false_iff.mpr hpipe)
        · exact containsSeq_false_of_char (x := ',')
            (by rw [data_commasp]; simp) (contains_eq_false_iff.mpr hcomma)
  | jarr l => simp [safeScalar] at hsafe
  | jobj l => simp [safeScalar] at hsafe

/-! ## Round-trip for scalar-valued objects -/

theorem safeKey_facts (k : Str) (hk : safeKey k = true) :
    jsTrim k = k ∧ ':' ∉ k ∧ '\n' ∉ k ∧ '\r' ∉ k ∧
    k ≠ "_".data ∧ startsWithChar '#' k = false ∧
    startsWithChar '|' k = false := by
  rw [safeKey] at hk
  simp only [Bool.and_eq_true, beq_iff_eq, Bool.not_eq_true',
    decide_eq_true_eq] at hk
  obtain ⟨⟨⟨⟨⟨⟨htrim, hcolon⟩, hnl⟩, hcr⟩, husc⟩, hhash⟩, hpipe⟩ := hk
  exact ⟨htrim, contains_eq_false_iff.mp hcolon,
    contains_eq_false_iff.mp hnl, contains_eq_false_iff.mp hcr,
    husc, hhash, hpipe⟩

theorem jsTrim_fieldLine (k w : Str) (htrimk : jsTrim k = k)
    (htrimw : jsTrim w = w) (hwne : w ≠ []) :
    jsTrim (k ++ ':' :: ' ' :: w) = k ++ ':' :: ' ' :: w := by
  apply jsTrim_eq_self
  · intro c hc
    cases k with
    | nil =>
      rw [List.nil_append, List.head?_cons] at hc
      injection hc with hc
      subst hc
      rfl
    | cons a t =>
      rw [List.cons_append, List.head?_cons] at hc
      injection hc with hc
      subst hc
      exact head_not_ws_of_jsTrimStart (jsTrimStart_eq_self_of_jsTrim htrimk)
  · intro c hc
    rw [List.getLast?_append_of_ne_nil k
      (show (':' :: ' ' :: w) ≠ [] by simp)] at hc
    rw [show ':' :: ' ' :: w = [':', ' '] ++ w from rfl,
      List.getLast?_append_of_ne_nil [':', ' '] hwne] at hc
    exact last_not_ws_of_jsTrimEnd (jsTrimEnd_eq_self_of_jsTrim htrimw) hc

theorem fieldLine_facts (k : Str) (v : JVal) (hk : safeKey k = true)
    (hv : safeScalar v = true) :
    jsTrim (k ++ ':' :: ' ' :: formatPrimitive v {} false) =
      k ++ ':' :: ' ' :: formatPrimitive v {} false ∧
    isBlankOrComment (k ++ ':' :: ' ' :: formatPrimitive v {} false) =
      false ∧
    startsWithChar '|' (k ++ ':' :: ' ' :: formatPrimitive v {} false) =
      false ∧
    "_:".data.isPrefixOf (k ++ ':' :: ' ' :: formatPrimitive v {} false) =
      false ∧
    '\n' ∉ k ++ ':' :: ' ' :: formatPrimitive v {} false ∧
    '\r' ∉ k ++ ':' :: ' ' :: formatPrimitive v {} false := by
  obtain ⟨hktrim, hkcolon, hknl, hkcr, husc, hkhash, hkpipe⟩ :=
    safeKey_facts k hk
  obtain ⟨hwne, hwbrk, hwtrim, hwnlcr, hwor, hwparse⟩ :=
    formatted_safeScalar_facts v hv
  set w := formatPrimitive v {} false with hw
  have htrim : jsTrim (k ++ ':' :: ' ' :: w) = k ++ ':' :: ' ' :: w :=
    jsTrim_fieldLine k w hktrim hwtrim hwne
  have hhash : startsWithChar '#' (k ++ ':' :: ' ' :: w) = false := by
    cases k with
    | nil => rfl
    | cons a t => rw [List.cons_append]; exact hkhash
  have hpipe : startsWithChar '|' (k ++ ':' :: ' ' :: w) = false := by
    cases k with
    | nil => rfl
    | cons a t => rw [List.cons_append]; exact hkpipe
  have hblank : isBlankOrComment (k ++ ':' :: ' ' :: w) = false := by
    unfold isBlankOrComment
    rw [htrim, Bool.or_eq_false_iff]
    refine ⟨decide_eq_false ?_, hhash⟩
    cases k <;> simp
  have hpre : "_:".data.isPrefixOf (k ++ ':' :: ' ' :: w) = false := by
    cases k with
    | nil => rfl
    | cons a t =>
      by_cases ha : a = '_'
      · subst ha
        cases t with
        | nil => exact absurd rfl husc
        | cons b t' =>
          have hb : b ≠ ':' := fun he =>
            hkcolon (he ▸ List.mem_cons_of_mem _ (List.mem_cons_self b t'))
          rw [List.cons_append, List.cons_append]
          rw [data_usc]
          show (('_' == '_') &&
            ((':' == b) && List.isPrefixOf [] (t' ++ ':' :: ' ' :: w))) =
              false
          simp only [List.isPrefixOf, Bool.and_true, beq_self_eq_true,
            Bool.true_and, beq_eq_false_iff_ne, ne_eq]
          exact fun he => hb he.symm
      · rw [List.cons_append, data_usc]
        show (('_' == a) && List.isPrefixOf [':']
          (t ++ ':' :: ' ' :: w)) = false
        simp only [Bool.and_eq_false_iff, beq_eq_false_iff_ne, ne_eq]
        exact Or.inl (fun he => ha he.symm)
  have hmemnl : '\n' ∉ k ++ ':' :: ' ' :: w := by
    intro hm
    rcases List.mem_append.mp hm with h | h
    · exact hknl h
    · rcases List.mem_cons.mp h with h | h
      · exact absurd h (by decide)
      · rcases List.mem_cons.mp h with h | h
        · exact absurd h (by decide)
        · exact (hwnlcr '\n' h).1 rfl
  have hmemcr : '\r' ∉ k ++ ':' :: ' ' :: w := by
    intro hm
    rcases List.mem_append.mp hm with h | h
    · exact hkcr h
    · rcases List.mem_cons.mp h with h | h
      · exact absurd h (by decide)
      · rcases List.mem_cons.mp h with h | h
        · exact absurd h (by decide)
        · exact (hwnlcr '\r' h).2 rfl
  exact ⟨htrim, hblank, hpipe, hpre, hmemnl, hmemcr⟩

theorem parseDoc_field_step (options : DecodeOptions) (fuel : Nat)
    (acc : List (Str × JVal)) (k : Str) (v : JVal) (rest : List Str)
    (hk : safeKey k = true) (hv : safeScalar v = true) :
    parseDoc options (fuel + 1) acc
      ((k ++ ':' :: ' ' :: formatPrimitive v {} false) :: rest) 0 =
      parseDoc options fuel (jsObjSet acc k v) rest 0 := by
  obtain ⟨hktrim, hkcolon, hknl, hkcr, husc, hkhash, hkpipe⟩ :=
    safeKey_facts k hk
  obtain ⟨hwne, hwbrk, hwtrim, hwnlcr, hwor, hwparse⟩ :=
    formatted_safeScalar_facts v hv
  obtain ⟨hltrim, hlblank, hlpipe, hlpre, hlnl, hlcr⟩ :=
    fieldLine_facts k v hk hv
  set w := formatPrimitive v {} false with hwdef
  have hind : lineIndentOf (k ++ ':' :: ' ' :: w) = 0 := by
    unfold lineIndentOf
    rw [jsTrimStart_eq_self_of_jsTrim hltrim]
    omega
  have hdrop : (k ++ ':' :: ' ' :: w).drop (k.length + 1) = ' ' :: w := by
    have h1 : k ++ ':' :: ' ' :: w = (k ++ [':']) ++ ' ' :: w := by simp
    have h2 : k.length + 1 = (k ++ [':']).length := by simp
    rw [h1, h2, List.drop_left]
  rw [parseDoc_cons_eq]
  rw [if_neg (by simp [hlblank])]
  rw [if_neg (Nat.not_lt_zero _)]
  rw [if_neg (by simp [hind])]
  dsimp only
  rw [hltrim]
  rw [if_neg (by simp [hlpipe])]
  rw [idxOf?_append_colon k (' ' :: w) hkcolon]
  dsimp only
  rw [List.take_left, hktrim, hdrop, jsTrim_cons_space, hwtrim]
  rw [if_neg (by simp [hwne, hwbrk])]
  rcases hwor with hq | ⟨hps, hcs⟩
  · rw [if_pos hq, hwparse]
  · by_cases hq : (startsWithChar '"' w && endsWithChar '"' w) = true
    · rw [if_pos hq, hwparse]
    · rw [if_neg hq, if_neg (by simp [hps]), if_neg (by simp [hcs]),
        hwparse]

theorem parseDoc_fieldLines (options : DecodeOptions)
    (fields : List (Str × JVal)) :
    ∀ (fuel : Nat) (acc : List (Str × JVal)),
      fields.length ≤ fuel →
      (∀ p ∈ fields, safeKey p.1 = true ∧ safeScalar p.2 = true) →
      parseDoc options fuel acc
        (fields.map
          (fun kv => kv.1 ++ ':' :: ' ' :: formatPrimitive kv.2 {} false))
        0 =
      (fields.foldl (fun a kv => jsObjSet a kv.1 kv.2) acc, []) := by
  induction fields with
  | nil =>
    intro fuel acc _ _
    cases fuel with
    | zero => rfl
    | succ f => rfl
  | cons p rest ih =>
    intro fuel acc hfuel hsafe
    obtain ⟨k, v⟩ := p
    cases fuel with
    | zero => simp at hfuel
    | succ f =>
      rw [List.map_cons, parseDoc_field_step options f acc k v _
        (hsafe (k, v) (List.mem_cons_self _ _)).1
        (hsafe (k, v) (List.mem_cons_self _ _)).2,
        List.foldl_cons]
      exact ih f (jsObjSet acc k v) (by simp at hfuel; omega)
        (fun q hq => hsafe q (List.mem_cons_of_mem _ hq))

theorem isPrimitive_of_safeScalar {v : JVal} (h : safeScalar v = true) :
    isPrimitive v = true := by
  cases v <;> first | rfl | simp [safeScalar] at h

theorem encodeFields_scalar (fields : List (Str × JVal))
    (h : ∀ p ∈ fields, isPrimitive p.2 = true) :
    encodeFields fields {} 0 [] =
      fields.map
        (fun kv => kv.1 ++ ':' :: ' ' :: formatPrimitive kv.2 {} false) := by
  induction fields with
  | nil =>
    unfold encodeFields
    rfl
  | cons p rest ih =>
    obtain ⟨k, v⟩ := p
    have hrest : ∀ q ∈ rest, isPrimitive q.2 = true :=
      fun q hq => h q (List.mem_cons_of_mem _ hq)
    have hv : isPrimitive v = true := h (k, v) (List.mem_cons_self _ _)
    rw [List.map_cons]
    cases v with
    | jnull =>
      conv_lhs => unfold encodeFields
      rw [ih hrest]
      simp [formatPrimitive]
    | jbool b =>
      conv_lhs => unfold encodeFields
      rw [ih hrest]
      simp
    | jnum n =>
      conv_lhs => unfold encodeFields
      rw [ih hrest]
      simp
    | jstr s =>
      conv_lhs => unfold encodeFields
      rw [ih hrest]
      simp
    | jarr l => simp [isPrimitive] at hv
    | jobj l => simp [isPrimitive] at hv

theorem encodeValue_jobj (fields : List (Str × JVal)) (hne : fields ≠ []) :
    encodeValue (.jobj fields) {} 0 =
      List.intercalate "\n".data (encodeFields fields {} 0 []) := by
  conv_lhs => unfold encodeValue
  dsimp only
  rw [if_neg (by simpa using hne)]
  simp

theorem encode_jobj_scalar (fields : List (Str × JVal)) (hne : fields ≠ [])
    (h : ∀ p ∈ fields, isPrimitive p.2 = true) :
    encode (.jobj fields) =
      List.intercalate "\n".data
        (fields.map
          (fun kv => kv.1 ++ ':' :: ' ' :: formatPrimitive kv.2 {} false)) := by
  have h1 : encode (.jobj fields) = encodeValue (.jobj fields) {} 0 := rfl
  rw [h1, encodeValue_jobj fields hne, encodeFields_scalar fields h]

theorem mem_intercalate_sep (c : Char) (x : Char) (ls : List Str)
    (h : x ∈ List.intercalate [c] ls) : x = c ∨ ∃ l ∈ ls, x ∈ l := by
  induction ls with
  | nil => simp [List.intercalate] at h
  | cons a t ih =>
    cases t with
    | nil =>
      rw [show List.intercalate [c] [a] = a by simp [List.intercalate]] at h
      exact Or.inr ⟨a, List.mem_cons_self a [], h⟩
    | cons b t' =>
      rw [intercalate_cons₂] at h
      rcases List.mem_append.mp h with h1 | h1
      · rcases List.mem_append.mp h1 with h2 | h2
        · exact Or.inr ⟨a, List.mem_cons_self _ _, h2⟩
        · simp at h2
          exact Or.inl h2
      · rcases ih h1 with h2 | ⟨l, hl, hx⟩
        · exact Or.inl h2
        · exact Or.inr ⟨l, List.mem_cons_of_mem a hl, hx⟩

/-- C1 (counterexample): the object `{k: "-"}` has only primitive
(string) values, yet `decode (encode {k: "-"})` is `{k: null}`, not the
original object: the dash is emitted unquoted and parses back as null. -/
theorem c1_counterexample :
    ([("k".data, JVal.jstr "-".data)].all (fun p => isPrimitive p.2))
      = true ∧
    decode (encode (JVal.jobj [("k".data, JVal.jstr "-".data)])) ≠
      JVal.jobj [("k".data, JVal.jstr "-".data)] := by
  refine ⟨by decide, ?_⟩
  have he : encode (JVal.jobj [("k".data, JVal.jstr "-".data)]) =
      "k: -".data := by
    rw [encode_jobj_scalar _ (by simp) (by decide)]
    rfl
  rw [he]
  have hd : decode "k: -".data = JVal.jobj [("k".data, JVal.jnull)] := rfl
  rw [hd]
  simp

/-- C1 (amended): for every object whose keys are safe (trim-stable, no
colon, newline or carriage return, not `_`, not starting with `#` or `|`)
and pairwise distinct, and whose values are safe scalars (null, booleans,
integers, and strings that either trigger the quoting rule or are
trim-stable and distinct from `-`, `[]`, the reverse compact symbols and
numeric shapes, with no backslash), decoding the encoded text yields the
original object. -/
theorem c1_scalar_roundtrip (fields : List (Str × JVal))
    (hsafe : ∀ p ∈ fields, safeKey p.1 = true ∧ safeScalar p.2 = true)
    (hnodup : (fields.map Prod.fst).Nodup) :
    decode (encode (.jobj fields)) = .jobj fields := by
  cases fields with
  | nil =>
    have he : encode (JVal.jobj ([] : List (Str × JVal))) = [] := by
      show encodeValue (.jobj []) {} 0 = []
      conv_lhs => unfold encodeValue
      simp
    rw [he]
    rfl
  | cons p rest =>
    obtain ⟨k, v⟩ := p
    have hsafe0 := hsafe (k, v) (List.mem_cons_self _ _)
    have hprim : ∀ q ∈ (k, v) :: rest, isPrimitive q.2 = true :=
      fun q hq => isPrimitive_of_safeScalar (hsafe q hq).2
    rw [encode_jobj_scalar ((k, v) :: rest) (by simp) hprim,
      List.map_cons]
    obtain ⟨hl0trim, hl0blank, hl0pipe, hl0pre, hl0nl, hl0cr⟩ :=
      fieldLine_facts k v hsafe0.1 hsafe0.2
    have hfacts : ∀ l ∈ (k ++ ':' :: ' ' :: formatPrimitive v {} false) ::
        rest.map
          (fun kv => kv.1 ++ ':' :: ' ' :: formatPrimitive kv.2 {} false),
        '\n' ∉ l ∧ '\r' ∉ l := by
      intro l hl
      rcases List.mem_cons.mp hl with rfl | hl
      · exact ⟨hl0nl, hl0cr⟩
      · rw [List.mem_map] at hl
        obtain ⟨kv, hkv, rfl⟩ := hl
        obtain ⟨_, _, _, _, hnl, hcr⟩ :=
          fieldLine_facts kv.1 kv.2
            (hsafe kv (List.mem_cons_of_mem _ hkv)).1
            (hsafe kv (List.mem_cons_of_mem _ hkv)).2
        exact ⟨hnl, hcr⟩
    set ls := (k ++ ':' :: ' ' :: formatPrimitive v {} false) ::
      rest.map
        (fun kv => kv.1 ++ ':' :: ' ' :: formatPrimitive kv.2 {} false)
      with hls
    have hnr : '\r' ∉ List.intercalate "\n".data ls := by
      intro hm
      rw [data_nl] at hm
      rcases mem_intercalate_sep '\n' '\r' ls hm with h | ⟨l, hl, hx⟩
      · exact absurd h (by decide)
      · exact (hfacts l hl).2 hx
    have hnonl : ∀ l ∈ ls, '\n' ∉ l := fun l hl => (hfacts l hl).1
    have hsplit : splitOn "\n".data
        (normalizeNewlines (List.intercalate "\n".data ls)) = ls := by
      rw [normalizeNewlines_id _ hnr, data_nl,
        splitOn_intercalate '\n' ls hnonl (by simp [hls])]
    unfold decode
    dsimp only
    rw [hsplit, hls]
    have hall : ((k ++ ':' :: ' ' :: formatPrimitive v {} false) ::
        rest.map
          (fun kv => kv.1 ++ ':' :: ' ' :: formatPrimitive kv.2 {} false)
        ).all isBlankOrComment = false := by
      rw [List.all_cons, hl0blank, Bool.false_and]
    rw [if_neg (by simp [hall])]
    rw [List.dropWhile_cons, if_neg (by simp [hl0blank])]
    dsimp only
    rw [hl0trim]
    rw [if_neg (by simp [hl0pipe])]
    rw [if_neg (by simp [hl0pre])]
    rw [show (k ++ ':' :: ' ' :: formatPrimitive v {} false) ::
        rest.map
          (fun kv => kv.1 ++ ':' :: ' ' :: formatPrimitive kv.2 {} false) =
        ((k, v) :: rest).map
          (fun kv => kv.1 ++ ':' :: ' ' :: formatPrimitive kv.2 {} false)
      from rfl]
    rw [parseDoc_fieldLines {} ((k, v) :: rest)
      ((((k, v) :: rest).map
        (fun kv => kv.1 ++ ':' :: ' ' :: formatPrimitive kv.2 {} false)
        ).length + 1) [] (by simp) hsafe]
    dsimp only
    rw [foldl_jsObjSet_eq_append ((k, v) :: rest) [] (by simp) hnodup]
    simp

/-! ## Round-trip for table-encoded object arrays: string lemmas -/

theorem jsTrimStart_spaces (n : Nat) (t : Str) :
    jsTrimStart (List.replicate n ' ' ++ t) = jsTrimStart t := by
  induction n with
  | zero => rfl
  | succ i ih =>
    rw [List.replicate_succ, List.cons_append,
      jsTrimStart_cons_of_pos _ (by decide), ih]

theorem jsTrimStart_replicate_space (n : Nat) :
    jsTrimStart (List.replicate n ' ') = [] := by
  have := jsTrimStart_spaces n []
  simpa using this

theorem jsTrimEnd_append_spaces (m : Nat) (s : Str) :
    jsTrimEnd (s ++ List.replicate m ' ') = jsTrimEnd s := by
  unfold jsTrimEnd
  rw [List.reverse_append, List.reverse_replicate]
  congr 1
  induction m with
  | zero => rfl
  | succ i ih =>
    rw [List.replicate_succ, List.cons_append,
      List.dropWhile_cons_of_pos (by decide), ih]

theorem jsTrim_append_spaces (s : Str) (m : Nat) (htrim : jsTrim s = s) :
    jsTrim (s ++ List.replicate m ' ') = s := by
  cases s with
  | nil =>
    rw [List.nil_append]
    show jsTrimEnd (jsTrimStart (List.replicate m ' ')) = []
    rw [jsTrimStart_replicate_space]
    rfl
  | cons a t =>
    have ha : isJsWhitespace a = false :=
      head_not_ws_of_jsTrimStart (jsTrimStart_eq_self_of_jsTrim htrim)
    show jsTrimEnd (jsTrimStart ((a :: t) ++ List.replicate m ' ')) = a :: t
    rw [List.cons_append, jsTrimStart_cons_of_neg _ ha, ← List.cons_append,
      jsTrimEnd_append_spaces m (a :: t)]
    exact jsTrimEnd_eq_self_of_jsTrim htrim

theorem jsTrim_cell (s : Str) (m : Nat) (htrim : jsTrim s = s) :
    jsTrim (' ' :: (s ++ List.replicate m ' ') ++ [' ']) = s := by
  have h1 : ' ' :: (s ++ List.replicate m ' ') ++ [' '] =
      ' ' :: (s ++ List.replicate (m + 1) ' ') := by
    rw [List.replicate_succ']
    simp [List.append_assoc]
  rw [h1, jsTrim_cons_space, jsTrim_append_spaces s (m + 1) htrim]

theorem pipe_join_shape (cells : List Str) (hne : cells ≠ []) :
    ' ' :: List.intercalate " | ".data cells ++ [' '] =
      List.intercalate "|".data
        (cells.map (fun c => ' ' :: c ++ [' '])) := by
  induction cells with
  | nil => exact absurd rfl hne
  | cons c t ih =>
    cases t with
    | nil => simp [List.intercalate]
    | cons c' t' =>
      have ihh := ih (by simp)
      simp only [List.map_cons] at ihh ⊢
      rw [intercalate_cons₂, intercalate_cons₂, ← ihh]
      simp [data_pipesp]

theorem intercalate_concat_nil (sep : Str) (M : List Str) (hne : M ≠ []) :
    List.intercalate sep (M ++ [[]]) = List.intercalate sep M ++ sep := by
  induction M with
  | nil => exact absurd rfl hne
  | cons m t ih =>
    cases t with
    | nil =>
      rw [show (([m] : List Str) ++ [[]]) = [m, []] from rfl,
        intercalate_cons₂]
      simp [List.intercalate]
    | cons m' t' =>
      have h1 : ((m :: m' :: t' : List Str) ++ [[]]) =
          m :: (m' :: (t' ++ [[]])) := rfl
      have h2 : ((m' :: t' : List Str) ++ [[]]) = m' :: (t' ++ [[]]) := rfl
      rw [h1, intercalate_cons₂, ← h2, ih (by simp), intercalate_cons₂]
      simp [List.append_assoc]

theorem splitOn_sep_head (c : Char) (b : Str) :
    splitOn [c] (c :: b) = [] :: splitOn [c] b := by
  have := splitOn_append_sep c [] b (by simp)
  simpa using this

theorem jsTrim_indent_pipe (n : Nat) (t : Str)
    (hlast : t.getLast? = some '|') :
    jsTrim (List.replicate n ' ' ++ '|' :: t) = '|' :: t := by
  have hta : t ≠ [] := by
    intro h
    rw [h] at hlast
    simp at hlast
  show jsTrimEnd (jsTrimStart _) = _
  rw [jsTrimStart_spaces, jsTrimStart_cons_of_neg _ (by decide)]
  apply jsTrimEnd_eq_self
  intro c hc
  rw [show ('|' :: t : Str) = ['|'] ++ t from rfl,
    List.getLast?_append_of_ne_nil _ hta, hlast] at hc
  injection hc with hc
  subst hc
  rfl

theorem lineIndentOf_indent_pipe (n : Nat) (t : Str) :
    lineIndentOf (List.replicate n ' ' ++ '|' :: t) = n := by
  unfold lineIndentOf
  rw [jsTrimStart_spaces, jsTrimStart_cons_of_neg _ (by decide)]
  simp

theorem mem_intercalate (sep : Str) (x : Char) (ls : List Str)
    (h : x ∈ List.intercalate sep ls) : x ∈ sep ∨ ∃ l ∈ ls, x ∈ l := by
  induction ls with
  | nil => simp [List.intercalate] at h
  | cons a t ih =>
    cases t with
    | nil =>
      rw [show List.intercalate sep [a] = a by simp [List.intercalate]] at h
      exact Or.inr ⟨a, List.mem_cons_self a [], h⟩
    | cons b t' =>
      rw [intercalate_cons₂] at h
      rcases List.mem_append.mp h with h1 | h1
      · rcases List.mem_append.mp h1 with h2 | h2
        · exact Or.inr ⟨a, List.mem_cons_self _ _, h2⟩
        · exact Or.inl h2
      · rcases ih h1 with h2 | ⟨l, hl, hx⟩
        · exact Or.inl h2
        · exact Or.inr ⟨l, List.mem_cons_of_mem a hl, hx⟩

theorem escapeString_no_pipe (s : Str) (h : '|' ∉ s) :
    '|' ∉ escapeString s := by
  induction s with
  | nil => rw [escapeString_nil]; simp
  | cons c t ih =>
    rw [escapeString_cons]
    intro hd
    rcases List.mem_append.mp hd with hd | hd
    · revert hd
      unfold escChar
      split_ifs with h1 h2 h3 h4 h5 <;> intro hd <;> simp at hd <;>
        first
        | (rcases hd with rfl | rfl <;> simp_all)
        | (subst hd; exact h (List.mem_cons_self _ _))
    · exact ih (fun hm => h (List.mem_cons_of_mem c hm)) hd

theorem updWidths_length : ∀ (ws : List Nat) (cs : List Str),
    (updWidths ws cs).length = max ws.length cs.length := by
  intro ws cs
  induction cs generalizing ws with
  | nil => cases ws <;> simp [updWidths]
  | cons c cs' ih =>
    cases ws with
    | nil =>
      rw [show updWidths [] (c :: cs') = c.length :: updWidths [] cs'
        from rfl]
      simp [ih []]
    | cons w ws' =>
      rw [show updWidths (w :: ws') (c :: cs') =
        max w c.length :: updWidths ws' cs' from rfl]
      simp [ih ws']
      omega

theorem foldl_updWidths_length (rows : List (List Str)) :
    ∀ (ws : List Nat) (L : Nat), ws.length = L →
    (∀ r ∈ rows, r.length = L) →
    (rows.foldl updWidths ws).length = L := by
  induction rows with
  | nil =>
    intro ws L h _
    simpa using h
  | cons r t ih =>
    intro ws L h hr
    rw [List.foldl_cons]
    refine ih _ L ?_ (fun q hq => hr q (List.mem_cons_of_mem _ hq))
    rw [updWidths_length, h, hr r (List.mem_cons_self _ _)]
    omega

theorem getColumnWidths_length (headers : List Str)
    (rows : List (List Str))
    (h : ∀ r ∈ rows, r.length = headers.length) :
    (getColumnWidths headers rows).length = headers.length :=
  foldl_updWidths_length rows (headers.map List.length) headers.length
    (by simp) h

theorem map_jsTrim_pieces (cs : List Str) :
    ∀ (ws : List Nat), cs.length = ws.length →
    (∀ c ∈ cs, jsTrim c = c) →
    ((List.zipWith padCell cs ws).map
      (fun c => ' ' :: c ++ [' '])).map jsTrim = cs := by
  induction cs with
  | nil =>
    intro ws _ _
    simp
  | cons c cs' ih =>
    intro ws hlen htrim
    cases ws with
    | nil => simp at hlen
    | cons w ws' =>
      simp only [List.zipWith_cons_cons, List.map_cons]
      rw [show padCell c w = c ++ List.replicate (w - c.length) ' '
          from rfl,
        jsTrim_cell c _ (htrim c (List.mem_cons_self _ _)),
        ih ws' (by simpa using hlen)
          (fun x hx => htrim x (List.mem_cons_of_mem _ hx))]

theorem padCell_not_mem (x : Char) (hx : x ≠ ' ') (c : Str) (w : Nat)
    (h : x ∉ c) : x ∉ padCell c w := by
  intro hm
  rw [show padCell c w = c ++ List.replicate (w - c.length) ' '
    from rfl] at hm
  rcases List.mem_append.mp hm with hm | hm
  · exact h hm
  · rw [List.mem_replicate] at hm
    exact hx hm.2

theorem zipWith_padCell_not_mem (x : Char) (hx : x ≠ ' ')
    (cs : List Str) :
    ∀ (ws : List Nat), (∀ c ∈ cs, x ∉ c) →
    ∀ p ∈ List.zipWith padCell cs ws, x ∉ p := by
  induction cs with
  | nil =>
    intro ws _ p hp
    simp at hp
  | cons c cs' ih =>
    intro ws h p hp
    cases ws with
    | nil => simp at hp
    | cons w ws' =>
      rw [List.zipWith_cons_cons] at hp
      rcases List.mem_cons.mp hp with rfl | hp
      · exact padCell_not_mem x hx c w (h c (List.mem_cons_self _ _))
      · exact ih ws' (fun q hq => h q (List.mem_cons_of_mem _ hq)) p hp

theorem map_jsGet_zip (headers : List Str) :
    ∀ (r : List JVal), headers.Nodup → r.length = headers.length →
    headers.map (fun h => (jsGet (headers.zip r) h).getD .jnull) = r := by
  induction headers with
  | nil =>
    intro r _ hlen
    cases r with
    | nil => rfl
    | cons v vs => simp at hlen
  | cons hd tl ih =>
    intro r hnodup hlen
    cases r with
    | nil => simp at hlen
    | cons v vs =>
      rw [List.zip_cons_cons, List.map_cons]
      congr 1
      · show (if hd = hd then some v else jsGet (tl.zip vs) hd).getD
          .jnull = v
        rw [if_pos rfl]
        rfl
      · have hcongr : ∀ x ∈ tl,
            (jsGet ((hd, v) :: tl.zip vs) x).getD .jnull =
            (jsGet (tl.zip vs) x).getD .jnull := by
          intro x hx
          have hne : hd ≠ x := fun he =>
            (List.nodup_cons.mp hnodup).1 (he ▸ hx)
          show (if hd = x then some v else jsGet (tl.zip vs) x).getD
            .jnull = _
          rw [if_neg hne]
        rw [List.map_congr_left hcongr,
          ih vs (List.nodup_cons.mp hnodup).2 (by simpa using hlen)]

theorem rows_formatted (headers : List Str) (vals : List (List JVal))
    (hnodup : headers.Nodup)
    (hlen : ∀ r ∈ vals, r.length = headers.length) :
    (vals.map (fun r => JVal.jobj (headers.zip r))).map
      (fun o => headers.map
        (fun h => formatPrimitive ((jsGet (objFields o) h).getD .jnull)
          {} true)) =
      vals.map (fun r => r.map (fun v => formatPrimitive v {} true)) := by
  rw [List.map_map]
  apply List.map_congr_left
  intro r hr
  show headers.map
      (fun h => formatPrimitive ((jsGet (headers.zip r) h).getD .jnull)
        {} true) =
    r.map (fun v => formatPrimitive v {} true)
  conv_rhs => rw [← map_jsGet_zip headers r hnodup (hlen r hr)]
  rw [List.map_map]
  rfl

theorem zipWith_padCell_ne_nil (cs : List Str) (ws : List Nat)
    (hne : cs ≠ []) (hlen : cs.length = ws.length) :
    List.zipWith padCell cs ws ≠ [] := by
  cases cs with
  | nil => exact absurd rfl hne
  | cons c cs' =>
    cases ws with
    | nil => simp at hlen
    | cons w ws' => simp

theorem table_line_facts (cs : List Str) (ws : List Nat)
    (hne : cs ≠ []) (hlen : cs.length = ws.length)
    (htrim : ∀ c ∈ cs, jsTrim c = c)
    (hnp : ∀ c ∈ cs, '|' ∉ c)
    (hnn : ∀ c ∈ cs, '\n' ∉ c)
    (hnr : ∀ c ∈ cs, '\r' ∉ c) :
    jsTrim (' ' :: ' ' :: '|' :: ' ' ::
        (List.intercalate " | ".data (List.zipWith padCell cs ws) ++
          [' ', '|'])) =
      '|' :: ' ' ::
        (List.intercalate " | ".data (List.zipWith padCell cs ws) ++
          [' ', '|']) ∧
    lineIndentOf (' ' :: ' ' :: '|' :: ' ' ::
        (List.intercalate " | ".data (List.zipWith padCell cs ws) ++
          [' ', '|'])) = 2 ∧
    (((splitOn "|".data ('|' :: ' ' ::
        (List.intercalate " | ".data (List.zipWith padCell cs ws) ++
          [' ', '|']))).drop 1).dropLast).map jsTrim = cs ∧
    '\n' ∉ (' ' :: ' ' :: '|' :: ' ' ::
        (List.intercalate " | ".data (List.zipWith padCell cs ws) ++
          [' ', '|'])) ∧
    '\r' ∉ (' ' :: ' ' :: '|' :: ' ' ::
        (List.intercalate " | ".data (List.zipWith padCell cs ws) ++
          [' ', '|'])) := by
  have hPne : List.zipWith padCell cs ws ≠ [] :=
    zipWith_padCell_ne_nil cs ws hne hlen
  have hMne : (List.zipWith padCell cs ws).map
      (fun c => ' ' :: c ++ [' ']) ≠ [] := by
    simpa using hPne
  have hshape : (' ' :: List.intercalate " | ".data
      (List.zipWith padCell cs ws) ++ [' ']) =
      List.intercalate "|".data ((List.zipWith padCell cs ws).map
        (fun c => ' ' :: c ++ [' '])) :=
    pipe_join_shape _ hPne
  have hlast : (' ' :: (List.intercalate " | ".data
      (List.zipWith padCell cs ws) ++ [' ', '|'])).getLast? =
      some '|' := by
    rw [show (' ' :: (List.intercalate " | ".data
        (List.zipWith padCell cs ws) ++ [' ', '|'])) =
      (' ' :: List.intercalate " | ".data
        (List.zipWith padCell cs ws) ++ [' ']) ++ ['|'] by simp]
    rw [List.getLast?_append_of_ne_nil _ (by simp)]
    rfl
  have h1 : jsTrim (' ' :: ' ' :: '|' :: ' ' ::
      (List.intercalate " | ".data (List.zipWith padCell cs ws) ++
        [' ', '|'])) =
      '|' :: ' ' ::
        (List.intercalate " | ".data (List.zipWith padCell cs ws) ++
          [' ', '|']) := by
    exact jsTrim_indent_pipe 2 _ hlast
  have h2 : lineIndentOf (' ' :: ' ' :: '|' :: ' ' ::
      (List.intercalate " | ".data (List.zipWith padCell cs ws) ++
        [' ', '|'])) = 2 := by
    exact lineIndentOf_indent_pipe 2 _
  have hnpM : ∀ m ∈ (List.zipWith padCell cs ws).map
      (fun c => ' ' :: c ++ [' ']) ++ [[]], '|' ∉ m := by
    intro m hm
    rcases List.mem_append.mp hm with hm | hm
    · rw [List.mem_map] at hm
      obtain ⟨p, hp, rfl⟩ := hm
      intro hx
      rcases List.mem_append.mp hx with hx | hx
      · rcases List.mem_cons.mp hx with hx | hx
        · exact absurd hx (by decide)
        · exact zipWith_padCell_not_mem '|' (by decide) cs ws hnp p hp hx
      · simp at hx
    · simp at hm
      subst hm
      simp
  have hsplit : splitOn "|".data ('|' :: ' ' ::
      (List.intercalate " | ".data (List.zipWith padCell cs ws) ++
        [' ', '|'])) =
      [] :: ((List.zipWith padCell cs ws).map
        (fun c => ' ' :: c ++ [' ']) ++ [[]]) := by
    rw [data_pipe]
    rw [show ('|' :: ' ' ::
        (List.intercalate " | ".data (List.zipWith padCell cs ws) ++
          [' ', '|'])) =
      '|' :: ((' ' :: List.intercalate " | ".data
        (List.zipWith padCell cs ws) ++ [' ']) ++ ['|']) by simp]
    rw [splitOn_sep_head]
    rw [data_pipe] at hshape
    rw [hshape]
    rw [← intercalate_concat_nil ['|'] _ hMne]
    rw [splitOn_intercalate '|' _ (by
      intro l hl
      have := hnpM l (by simpa using hl)
      exact this) (by simp)]
  have h3 : (((splitOn "|".data ('|' :: ' ' ::
      (List.intercalate " | ".data (List.zipWith padCell cs ws) ++
        [' ', '|']))).drop 1).dropLast).map jsTrim = cs := by
    rw [hsplit]
    rw [show (([] :: ((List.zipWith padCell cs ws).map
        (fun c => ' ' :: c ++ [' ']) ++ [[]])).drop 1) =
      (List.zipWith padCell cs ws).map
        (fun c => ' ' :: c ++ [' ']) ++ [[]] from rfl]
    rw [List.dropLast_concat]
    exact map_jsTrim_pieces cs ws hlen htrim
  have hmem : ∀ x : Char, x ≠ ' ' → x ≠ '|' → (∀ c ∈ cs, x ∉ c) →
      x ∉ (' ' :: ' ' :: '|' :: ' ' ::
        (List.intercalate " | ".data (List.zipWith padCell cs ws) ++
          [' ', '|'])) := by
    intro x hxs hxp hxc hm
    rcases List.mem_cons.mp hm with h | hm
    · exact hxs h
    rcases List.mem_cons.mp hm with h | hm
    · exact hxs h
    rcases List.mem_cons.mp hm with h | hm
    · exact hxp h
    rcases List.mem_cons.mp hm with h | hm
    · exact hxs h
    rcases List.mem_append.mp hm with hm | hm
    · rcases mem_intercalate " | ".data x _ hm with h | ⟨p, hp, hx⟩
      · rw [data_pipesp] at h
        rcases List.mem_cons.mp h with h | h
        · exact hxs h
        rcases List.mem_cons.mp h with h | h
        · exact hxp h
        · simp at h
          exact hxs h
      · exact zipWith_padCell_not_mem x hxs cs ws hxc p hp hx
    · rcases List.mem_cons.mp hm with h | hm
      · exact hxs h
      · simp at hm
        exact hxp hm
  exact ⟨h1, h2, h3, by
    exact hmem '\n' (by decide) (by decide) hnn, by
    exact hmem '\r' (by decide) (by decide) hnr⟩

theorem isTableArray_zip (headers : List Str) (vals : List (List JVal))
    (hvne : vals ≠ [])
    (hlen : ∀ r ∈ vals, r.length = headers.length)
    (hprim : ∀ r ∈ vals, ∀ v ∈ r, isPrimitive v = true) :
    isTableArray (vals.map (fun r => JVal.jobj (headers.zip r))) =
      true := by
  cases vals with
  | nil => exact absurd rfl hvne
  | cons r0 vs =>
    rw [List.map_cons]
    unfold isTableArray
    dsimp only
    simp only [Bool.and_eq_true]
    refine ⟨⟨?_, ?_⟩, ?_⟩
    · rw [List.all_eq_true]
      intro x hx
      rcases List.mem_cons.mp hx with rfl | hx
      · rfl
      · rw [List.mem_map] at hx
        obtain ⟨r, _, rfl⟩ := hx
        rfl
    · rw [List.all_eq_true]
      intro x hx
      rcases List.mem_cons.mp hx with rfl | hx
      · simp
      · rw [List.mem_map] at hx
        obtain ⟨r, hr, rfl⟩ := hx
        rw [decide_eq_true_eq]
        show sortedKeysJoined (headers.zip r) =
          sortedKeysJoined (headers.zip r0)
        unfold sortedKeysJoined
        rw [List.map_fst_zip _ _
            (le_of_eq (hlen r (List.mem_cons_of_mem _ hr)).symm),
          List.map_fst_zip _ _
            (le_of_eq (hlen r0 (List.mem_cons_self _ _)).symm)]
    · rw [List.all_eq_true]
      intro x hx
      have hx' : ∃ r ∈ r0 :: vs, x = JVal.jobj (headers.zip r) := by
        rcases List.mem_cons.mp hx with rfl | hx
        · exact ⟨r0, List.mem_cons_self _ _, rfl⟩
        · rw [List.mem_map] at hx
          obtain ⟨r, hr, rfl⟩ := hx
          exact ⟨r, List.mem_cons_of_mem _ hr, rfl⟩
      obtain ⟨r, hr, rfl⟩ := hx'
      show (headers.zip r).all (fun kv => isPrimitive kv.2) = true
      rw [List.all_eq_true]
      intro kv hkv
      obtain ⟨a, b⟩ := kv
      exact hprim r hr b (List.of_mem_zip hkv).2

theorem encodeTable_shape (headers : List Str) (vals : List (List JVal))
    (hnodup : headers.Nodup) (hvne : vals ≠ [])
    (hlen : ∀ r ∈ vals, r.length = headers.length) :
    encodeTable (vals.map (fun r => JVal.jobj (headers.zip r))) {} 1 =
      List.intercalate "\n".data
        ((' ' :: ' ' :: '|' :: ' ' ::
          (List.intercalate " | ".data
            (List.zipWith padCell headers
              (getColumnWidths headers
                (vals.map (fun r =>
                  r.map (fun v => formatPrimitive v {} true))))) ++
            [' ', '|'])) ::
        (vals.map (fun r =>
            r.map (fun v => formatPrimitive v {} true))).map
          (fun row => ' ' :: ' ' :: '|' :: ' ' ::
            (List.intercalate " | ".data
              (List.zipWith padCell row
                (getColumnWidths headers
                  (vals.map (fun r =>
                    r.map (fun v => formatPrimitive v {} true))))) ++
              [' ', '|']))) := by
  cases vals with
  | nil => exact absurd rfl hvne
  | cons r0 vs =>
    rw [List.map_cons]
    conv_lhs => unfold encodeTable
    dsimp only
    rw [show objFields (JVal.jobj (headers.zip r0)) = headers.zip r0
      from rfl]
    rw [List.map_fst_zip _ _
      (le_of_eq (hlen r0 (List.mem_cons_self _ _)).symm)]
    rw [show (JVal.jobj (headers.zip r0) ::
        vs.map (fun r => JVal.jobj (headers.zip r))) =
      (r0 :: vs).map (fun r => JVal.jobj (headers.zip r)) from rfl]
    rw [rows_formatted headers (r0 :: vs) hnodup hlen]
    rw [List.map_cons]
    rfl

theorem encodeValue_jarr_table (arr : List JVal) (hne : arr ≠ [])
    (hnp : isPrimitiveArray arr = false) (hta : isTableArray arr = true) :
    encodeValue (.jarr arr) {} 0 = '\n' :: encodeTable arr {} 1 := by
  conv_lhs => unfold encodeValue
  dsimp only
  rw [if_neg (by simp [List.isEmpty_iff, hne]),
    if_neg (by simp [hnp]), if_pos hta]

theorem encodeFields_jarr (k : Str) (items : List JVal)
    (hne : items.isEmpty = false) (hnp : isPrimitiveArray items = false) :
    encodeFields [(k, .jarr items)] {} 0 [] =
      [k ++ ':' :: encodeValue (.jarr items) {} 0] := by
  conv_lhs => unfold encodeFields
  dsimp only
  rw [if_neg (by simp [hne]), if_neg (by simp [hnp])]
  simp
  unfold encodeFields
  rfl

theorem encode_jobj_table (k : Str) (items : List JVal)
    (hne : items ≠ []) (hnp : isPrimitiveArray items = false)
    (hta : isTableArray items = true) :
    encode (.jobj [(k, .jarr items)]) =
      k ++ ':' :: '\n' :: encodeTable items {} 1 := by
  have h1 : encode (.jobj [(k, .jarr items)]) =
      encodeValue (.jobj [(k, .jarr items)]) {} 0 := rfl
  have hie : items.isEmpty = false := by
    cases items with
    | nil => exact absurd rfl hne
    | cons a t => rfl
  rw [h1, encodeValue_jobj _ (by simp), encodeFields_jarr k items hie hnp,
    encodeValue_jarr_table items hne hnp hta]
  simp [List.intercalate]

/-! ## Facts about formatted table cells -/

theorem formatted_safeCell_facts (v : JVal) (hsafe : safeCell v = true) :
    jsTrim (formatPrimitive v {} true) = formatPrimitive v {} true ∧
    '|' ∉ formatPrimitive v {} true ∧
    '\n' ∉ formatPrimitive v {} true ∧
    '\r' ∉ formatPrimitive v {} true ∧
    parsePrimitive (formatPrimitive v {} true) = v := by
  cases v with
  | jnull => exact ⟨by decide, by decide, by decide, by decide, rfl⟩
  | jbool b =>
    cases b <;> exact ⟨by decide, by decide, by decide, by decide, rfl⟩
  | jnum n =>
    have hw : formatPrimitive (.jnum n) {} true = intRepr n := rfl
    rw [hw]
    have hnotchar : ∀ x : Char, x ≠ '-' → x.isDigit = false →
        x ∉ intRepr n := by
      intro x hx1 hx2 hm
      rcases intRepr_chars n x hm with h | h
      · exact hx1 h
      · rw [hx2] at h; exact absurd h (by decide)
    exact ⟨jsTrim_intRepr n, hnotchar '|' (by decide) (by decide),
      hnotchar '\n' (by decide) (by decide),
      hnotchar '\r' (by decide) (by decide), parsePrimitive_intRepr n⟩
  | jstr s =>
    have hs : safeCellString s = true := hsafe
    simp only [safeCellString, Bool.and_eq_true, Bool.or_eq_true] at hs
    obtain ⟨⟨⟨hbs', hpipe'⟩, hne'⟩, hrest⟩ := hs
    have hbs : '\\' ∉ s :=
      contains_eq_false_iff.mp (by rwa [Bool.not_eq_true'] at hbs')
    have hpipe : '|' ∉ s :=
      contains_eq_false_iff.mp (by rwa [Bool.not_eq_true'] at hpipe')
    have hsne : s ≠ [] := by
      rw [Bool.not_eq_true'] at hne'
      cases s with
      | nil => simp at hne'
      | cons a t => simp
    by_cases hq : needsQuoting s = true
    · have hw : formatPrimitive (.jstr s) {} true =
          '"' :: escapeString s ++ ['"'] := by
        have h0 : formatPrimitive (.jstr s) {} true =
            (if s = [] && true then "-".data
             else if needsQuoting s then '"' :: escapeString s ++ ['"']
             else s) := rfl
        rw [h0]
        simp [hq, hsne]
      rw [hw]
      refine ⟨jsTrim_quoted s, ?_, ?_, ?_, parsePrimitive_quoted s hbs⟩
      · intro hm
        rcases List.mem_cons.mp hm with hm | hm
        · exact absurd hm.symm (by decide)
        · rcases List.mem_append.mp hm with hm | hm
          · exact escapeString_no_pipe s hpipe hm
          · simp at hm
      · intro hm
        rcases List.mem_cons.mp hm with hm | hm
        · exact absurd hm.symm (by decide)
        · rcases List.mem_append.mp hm with hm | hm
          · exact (escapeString_no_nl_cr s _ hm).1 rfl
          · simp at hm
      · intro hm
        rcases List.mem_cons.mp hm with hm | hm
        · exact absurd hm.symm (by decide)
        · rcases List.mem_append.mp hm with hm | hm
          · exact (escapeString_no_nl_cr s _ hm).2 rfl
          · simp at hm
    · rcases hrest with hq' | hrest
      · exact absurd hq' hq
      · simp only [Bool.and_eq_true, beq_iff_eq, decide_eq_true_eq,
          Option.isNone_iff_eq_none] at hrest
        obtain ⟨⟨⟨htrim, hdash⟩, hrev⟩, hshape⟩ := hrest
        rw [Bool.not_eq_true] at hq
        have htrig : codeQuotingTrigger s = false := by
          rw [← needsQuoting_eq_codeTrigger]; exact hq
        obtain ⟨hnil, hpipe2, hnl, hcr, hcomma, hdq⟩ :=
          codeTrigger_false_facts s htrig
        have hw : formatPrimitive (.jstr s) {} true = s := by
          have h0 : formatPrimitive (.jstr s) {} true =
              (if s = [] && true then "-".data
               else if needsQuoting s then '"' :: escapeString s ++ ['"']
               else s) := rfl


          rw [h0]
          simp [hq, hsne]
        rw [hw]
        exact ⟨htrim, hpipe, hnl, hcr,
          parsePrimitive_unquoted s htrim hq hdash hrev hshape⟩
  | jarr l => simp [safeCell] at hsafe
  | jobj l => simp [safeCell] at hsafe

/-- Witness for the C1 amended theorem at the object
`{a: 1, b: "hi"}`. -/
theorem c1_scalar_roundtrip_witness :
    decode (encode (JVal.jobj [("a".data, JVal.jnum 1),
      ("b".data, JVal.jstr "hi".data)])) =
      JVal.jobj [("a".data, JVal.jnum 1),
        ("b".data, JVal.jstr "hi".data)] :=
  c1_scalar_roundtrip _ (by decide) (by decide)

/-! ## Parsing the constructed table block -/

theorem safeHeader_facts (h : Str) (hh : safeHeader h = true) :
    jsTrim h = h ∧ '|' ∉ h ∧ '\n' ∉ h ∧ '\r' ∉ h := by
  rw [safeHeader] at hh
  simp only [Bool.and_eq_true, beq_iff_eq, Bool.not_eq_true'] at hh
  obtain ⟨⟨⟨htrim, hp⟩, hn⟩, hr⟩ := hh
  exact ⟨htrim, contains_eq_false_iff.mp hp, contains_eq_false_iff.mp hn,
    contains_eq_false_iff.mp hr⟩

theorem parseTableRows_constructed (headers : List Str) (W : List Nat)
    (hWlen : W.length = headers.length) (hnodup : headers.Nodup)
    (hhne : headers ≠ []) (vals : List (List JVal))
    (hlen : ∀ r ∈ vals, r.length = headers.length)
    (hcell : ∀ r ∈ vals, ∀ v ∈ r, safeCell v = true) :
    parseTableRows headers 2
      ((vals.map (fun r => r.map (fun v => formatPrimitive v {} true))).map
        (fun row => ' ' :: ' ' :: '|' :: ' ' ::
          (List.intercalate " | ".data (List.zipWith padCell row W) ++
            [' ', '|']))) =
      (vals.map (fun r => JVal.jobj (headers.zip r)), []) := by
  induction vals with
  | nil => rfl
  | cons r vs ih =>
    have hrmem : r ∈ r :: vs := List.mem_cons_self _ _
    have hrowlen : (r.map (fun v => formatPrimitive v {} true)).length =
        headers.length := by
      simp [hlen r hrmem]
    have hrowne : r.map (fun v => formatPrimitive v {} true) ≠ [] := by
      intro hempty
      rw [List.map_eq_nil_iff] at hempty
      rw [hempty] at hrowlen
      simp at hrowlen
      exact hhne (List.length_eq_zero.mp hrowlen.symm)
    have hcellfacts : ∀ c ∈ r.map (fun v => formatPrimitive v {} true),
        jsTrim c = c ∧ '|' ∉ c ∧ '\n' ∉ c ∧ '\r' ∉ c := by
      intro c hc
      rw [List.mem_map] at hc
      obtain ⟨v, hv, rfl⟩ := hc
      obtain ⟨f1, f2, f3, f4, _⟩ :=
        formatted_safeCell_facts v (hcell r hrmem v hv)
      exact ⟨f1, f2, f3, f4⟩
    obtain ⟨t1, t2, t3, _, _⟩ := table_line_facts
      (r.map (fun v => formatPrimitive v {} true)) W hrowne
      (by rw [hrowlen, hWlen])
      (fun c hc => (hcellfacts c hc).1)
      (fun c hc => (hcellfacts c hc).2.1)
      (fun c hc => (hcellfacts c hc).2.2.1)
      (fun c hc => (hcellfacts c hc).2.2.2)
    rw [List.map_cons, List.map_cons, parseTableRows_cons_eq]
    dsimp only
    rw [t1]
    rw [if_neg (by simp [startsWithChar])]
    rw [if_neg (by
      rw [t2]
      simp)]
    rw [show (fun c => parsePrimitive (jsTrim c)) =
      parsePrimitive ∘ jsTrim from rfl]
    rw [← List.map_map, t3]
    have hparse : (r.map (fun v => formatPrimitive v {} true)).map
        parsePrimitive = r := by
      rw [List.map_map]
      have hcongr : ∀ v ∈ r,
          (parsePrimitive ∘ fun v => formatPrimitive v {} true) v =
            id v := by
        intro v hv
        exact (formatted_safeCell_facts v (hcell r hrmem v hv)).2.2.2.2
      rw [List.map_congr_left hcongr, List.map_id]
    rw [hparse]
    rw [if_pos (hlen r hrmem)]
    rw [ih (fun q hq => hlen q (List.mem_cons_of_mem _ hq))
      (fun q hq => hcell q (List.mem_cons_of_mem _ hq))]
    rw [foldl_jsObjSet_eq_append (headers.zip r) [] (by simp)
      (by rw [List.map_fst_zip _ _ (le_of_eq (hlen r hrmem).symm)]
          exact hnodup)]
    simp

theorem parseTable_constructed (headers : List Str) (W : List Nat)
    (hWlen : W.length = headers.length) (hnodup : headers.Nodup)
    (hhne : headers ≠ [])
    (hhsafe : ∀ h ∈ headers, safeHeader h = true)
    (vals : List (List JVal))
    (hlen : ∀ r ∈ vals, r.length = headers.length)
    (hcell : ∀ r ∈ vals, ∀ v ∈ r, safeCell v = true) :
    parseTable ((' ' :: ' ' :: '|' :: ' ' ::
        (List.intercalate " | ".data (List.zipWith padCell headers W) ++
          [' ', '|'])) ::
      (vals.map (fun r =>
          r.map (fun v => formatPrimitive v {} true))).map
        (fun row => ' ' :: ' ' :: '|' :: ' ' ::
          (List.intercalate " | ".data (List.zipWith padCell row W) ++
            [' ', '|']))) 2 =
      (vals.map (fun r => JVal.jobj (headers.zip r)), []) := by
  obtain ⟨t1, _, t3, _, _⟩ := table_line_facts headers W hhne hWlen.symm
    (fun h hh => (safeHeader_facts h (hhsafe h hh)).1)
    (fun h hh => (safeHeader_facts h (hhsafe h hh)).2.1)
    (fun h hh => (safeHeader_facts h (hhsafe h hh)).2.2.1)
    (fun h hh => (safeHeader_facts h (hhsafe h hh)).2.2.2)
  unfold parseTable
  dsimp only
  rw [t1]
  rw [if_neg (by simp [startsWithChar])]
  rw [t3]
  exact parseTableRows_constructed headers W hWlen hnodup hhne vals hlen
    hcell

theorem isPrimitive_of_safeCell {v : JVal} (h : safeCell v = true) :
    isPrimitive v = true := by
  cases v <;> first | rfl | simp [safeCell] at h

theorem parseDoc_nil (options : DecodeOptions) (fuel : Nat)
    (acc : List (Str × JVal)) (b : Nat) :
    parseDoc options fuel acc [] b = (acc, []) := by
  cases fuel <;> rfl

theorem colonLine_facts (k : Str) (hk : safeKey k = true) :
    jsTrim (k ++ [':']) = k ++ [':'] ∧
    isBlankOrComment (k ++ [':']) = false ∧
    startsWithChar '|' (k ++ [':']) = false ∧
    "_:".data.isPrefixOf (k ++ [':']) = false ∧
    '\n' ∉ k ++ [':'] ∧ '\r' ∉ k ++ [':'] ∧
    lineIndentOf (k ++ [':']) = 0 := by
  obtain ⟨hktrim, hkcolon, hknl, hkcr, husc, hkhash, hkpipe⟩ :=
    safeKey_facts k hk
  have htrim : jsTrim (k ++ [':']) = k ++ [':'] := by
    apply jsTrim_eq_self
    · intro c hc
      cases k with
      | nil =>
        rw [List.nil_append, List.head?_cons] at hc
        injection hc with hc
        subst hc
        rfl
      | cons a t =>
        rw [List.cons_append, List.head?_cons] at hc
        injection hc with hc
        subst hc
        exact head_not_ws_of_jsTrimStart
          (jsTrimStart_eq_self_of_jsTrim hktrim)
    · intro c hc
      rw [List.getLast?_append_of_ne_nil k
        (show ([':'] : Str) ≠ [] by simp)] at hc
      simp at hc
      subst hc
      rfl
  have hhash : startsWithChar '#' (k ++ [':']) = false := by
    cases k with
    | nil => rfl
    | cons a t => rw [List.cons_append]; exact hkhash
  have hpipe : startsWithChar '|' (k ++ [':']) = false := by
    cases k with
    | nil => rfl
    | cons a t => rw [List.cons_append]; exact hkpipe
  have hblank : isBlankOrComment (k ++ [':']) = false := by
    unfold isBlankOrComment
    rw [htrim, Bool.or_eq_false_iff]
    refine ⟨decide_eq_false ?_, hhash⟩
    cases k <;> simp
  have hpre : "_:".data.isPrefixOf (k ++ [':']) = false := by
    cases k with
    | nil => rfl
    | cons a t =>
      by_cases ha : a = '_'
      · subst ha
        cases t with
        | nil => exact absurd rfl husc
        | cons b t' =>
          have hb : b ≠ ':' := fun he =>
            hkcolon (he ▸ List.mem_cons_of_mem _ (List.mem_cons_self b t'))
          rw [List.cons_append, List.cons_append, data_usc]
          show (('_' == '_') &&
            ((':' == b) && List.isPrefixOf [] (t' ++ [':']))) = false
          simp only [List.isPrefixOf, Bool.and_true, beq_self_eq_true,
            Bool.true_and, beq_eq_false_iff_ne, ne_eq]
          exact fun he => hb he.symm
      · rw [List.cons_append, data_usc]
        show (('_' == a) && List.isPrefixOf [':'] (t ++ [':'])) = false
        simp only [Bool.and_eq_false_iff, beq_eq_false_iff_ne, ne_eq]
        exact Or.inl (fun he => ha he.symm)
  have hmemnl : '\n' ∉ k ++ [':'] := by
    intro hm
    rcases List.mem_append.mp hm with h | h
    · exact hknl h
    · simp at h
  have hmemcr : '\r' ∉ k ++ [':'] := by
    intro hm
    rcases List.mem_append.mp hm with h | h
    · exact hkcr h
    · simp at h
  have hind : lineIndentOf (k ++ [':']) = 0 := by
    unfold lineIndentOf
    rw [jsTrimStart_eq_self_of_jsTrim htrim]
    omega
  exact ⟨htrim, hblank, hpipe, hpre, hmemnl, hmemcr, hind⟩

theorem decode_colon_table (k : Str) (HL : Str) (RLs : List Str)
    (rows : List JVal)
    (hk : safeKey k = true)
    (hHL2 : lineIndentOf HL = 2)
    (hHLpipe : startsWithChar '|' (jsTrim HL) = true)
    (hnl : ∀ l ∈ HL :: RLs, '\n' ∉ l)
    (hcr : ∀ l ∈ HL :: RLs, '\r' ∉ l)
    (hpt : parseTable (HL :: RLs) 2 = (rows, [])) :
    decode (k ++ ':' :: '\n' :: List.intercalate "\n".data (HL :: RLs)) =
      .jobj [(k, .jarr rows)] := by
  obtain ⟨hctrim, hcblank, hcpipe, hcpre, hcnl, hccr, hcind⟩ :=
    colonLine_facts k hk
  obtain ⟨hktrim, hkcolon, _, _, _, _, _⟩ := safeKey_facts k hk
  have hHLtne : jsTrim HL ≠ [] := by
    intro he
    rw [he] at hHLpipe
    simp [startsWithChar] at hHLpipe
  have htextcr : '\r' ∉ k ++ ':' :: '\n' ::
      List.intercalate "\n".data (HL :: RLs) := by
    intro hm
    rcases List.mem_append.mp hm with h | h
    · exact hccr (List.mem_append_left _ h)
    · rcases List.mem_cons.mp h with h | h
      · exact absurd h (by decide)
      · rcases List.mem_cons.mp h with h | h
        · exact absurd h (by decide)
        · rw [data_nl] at h
          rcases mem_intercalate ['\n'] '\r' _ h with h | ⟨l, hl, hx⟩
          · simp at h
          · exact hcr l hl hx
  have hsplit : splitOn "\n".data (normalizeNewlines
      (k ++ ':' :: '\n' :: List.intercalate "\n".data (HL :: RLs))) =
      (k ++ [':']) :: HL :: RLs := by
    rw [normalizeNewlines_id _ htextcr, data_nl]
    rw [show (k ++ ':' :: '\n' :: List.intercalate ['\n'] (HL :: RLs)) =
      (k ++ [':']) ++ '\n' :: List.intercalate ['\n'] (HL :: RLs)
      by simp]
    rw [splitOn_append_sep '\n' (k ++ [':']) _ hcnl]
    rw [splitOn_intercalate '\n' (HL :: RLs) hnl (by simp)]
  unfold decode
  dsimp only
  rw [hsplit]
  have hall : ((k ++ [':']) :: HL :: RLs).all isBlankOrComment = false := by
    rw [List.all_cons, hcblank, Bool.false_and]
  rw [if_neg (by simp [hall])]
  rw [List.dropWhile_cons, if_neg (by simp [hcblank])]
  dsimp only
  rw [hctrim]
  rw [if_neg (by simp [hcpipe])]
  rw [if_neg (by simp [hcpre])]
  rw [parseDoc_cons_eq]
  rw [if_neg (by simp [hcblank])]
  rw [if_neg (Nat.not_lt_zero _)]
  rw [if_neg (by simp [hcind])]
  dsimp only
  rw [hctrim]
  rw [if_neg (by simp [hcpipe])]
  rw [idxOf?_append_colon k [] hkcolon]
  dsimp only
  rw [List.take_left, hktrim]
  have hdropc : (k ++ [':']).drop (k.length + 1) = [] := by
    have h2 : k.length + 1 = (k ++ [':']).length := by simp
    rw [h2, List.drop_length]
  rw [hdropc, show jsTrim ([] : Str) = [] from rfl]
  rw [if_pos (by simp)]
  rw [List.dropWhile_cons, if_neg (by simp [hHLtne])]
  dsimp only
  rw [hHL2]
  rw [if_pos (by simp [hHLpipe])]
  rw [hpt]
  dsimp only
  rw [parseDoc_nil]
  rfl

/-- C2 (counterexample): the singleton array `[{a: ""}]` consists of
objects with identical key sets and primitive (string) values and is
encoded as a table block, yet `decode (encode {k: [{a: ""}]})` yields
`{k: [{a: null}]}`: the empty-string cell is emitted as `-`, which parses
back as null. -/
theorem c2_counterexample :
    isTableArray [JVal.jobj [("a".data, JVal.jstr [])]] = true ∧
    decode (encode (JVal.jobj [("k".data,
        JVal.jarr [JVal.jobj [("a".data, JVal.jstr [])]])])) ≠
      JVal.jobj [("k".data,
        JVal.jarr [JVal.jobj [("a".data, JVal.jstr [])]])] := by
  refine ⟨by decide, ?_⟩
  have he : encode (JVal.jobj [("k".data,
      JVal.jarr [JVal.jobj [("a".data, JVal.jstr [])]])]) =
      "k:\n  | a |\n  | - |".data := by
    rw [encode_jobj_table "k".data _ (by simp) (by decide) (by decide)]
    rfl
  rw [he]
  have hd : decode "k:\n  | a |\n  | - |".data =
      JVal.jobj [("k".data,
        JVal.jarr [JVal.jobj [("a".data, JVal.jnull)]])] := rfl
  rw [hd]
  simp

/-- C2 (amended): for every safe key `k`, nonempty duplicate-free list of
safe headers, and nonempty list of value rows of the headers' length whose
entries are safe cells (null, booleans, integers, and safe cell strings),
the object `{k: arr}` with `arr` the corresponding array of objects is
encoded as a table block and decodes back to itself. -/
theorem c2_table_roundtrip (k : Str) (headers : List Str)
    (vals : List (List JVal))
    (hk : safeKey k = true)
    (hhne : headers ≠ []) (hhnodup : headers.Nodup)
    (hhsafe : ∀ h ∈ headers, safeHeader h = true)
    (hvne : vals ≠ [])
    (hlen : ∀ r ∈ vals, r.length = headers.length)
    (hcell : ∀ r ∈ vals, ∀ v ∈ r, safeCell v = true) :
    decode (encode (.jobj [(k,
        .jarr (vals.map (fun r => .jobj (headers.zip r))))])) =
      .jobj [(k, .jarr (vals.map (fun r => .jobj (headers.zip r))))] := by
  have harrne : vals.map (fun r => JVal.jobj (headers.zip r)) ≠ [] := by
    simpa using hvne
  have hnp : isPrimitiveArray
      (vals.map (fun r => JVal.jobj (headers.zip r))) = false := by
    cases vals with
    | nil => exact absurd rfl hvne
    | cons r0 vs =>
      rw [List.map_cons]
      simp [isPrimitiveArray, isPrimitive]
  have hta : isTableArray
      (vals.map (fun r => JVal.jobj (headers.zip r))) = true :=
    isTableArray_zip headers vals hvne hlen
      (fun r hr v hv => isPrimitive_of_safeCell (hcell r hr v hv))
  rw [encode_jobj_table k _ harrne hnp hta,
    encodeTable_shape headers vals hhnodup hvne hlen]
  have hRSlen : ∀ row ∈ vals.map (fun r =>
      r.map (fun v => formatPrimitive v {} true)),
      row.length = headers.length := by
    intro row hrow
    rw [List.mem_map] at hrow
    obtain ⟨r, hr, rfl⟩ := hrow
    simp [hlen r hr]
  have hW : (getColumnWidths headers (vals.map (fun r =>
      r.map (fun v => formatPrimitive v {} true)))).length =
      headers.length :=
    getColumnWidths_length headers _ hRSlen
  obtain ⟨ht1, ht2, ht3, ht4, ht5⟩ := table_line_facts headers
    (getColumnWidths headers (vals.map (fun r =>
      r.map (fun v => formatPrimitive v {} true)))) hhne hW.symm
    (fun h hh => (safeHeader_facts h (hhsafe h hh)).1)
    (fun h hh => (safeHeader_facts h (hhsafe h hh)).2.1)
    (fun h hh => (safeHeader_facts h (hhsafe h hh)).2.2.1)
    (fun h hh => (safeHeader_facts h (hhsafe h hh)).2.2.2)
  have hrowlines : ∀ row ∈ vals.map (fun r =>
      r.map (fun v => formatPrimitive v {} true)),
      '\n' ∉ (' ' :: ' ' :: '|' :: ' ' ::
        (List.intercalate " | ".data (List.zipWith padCell row
          (getColumnWidths headers (vals.map (fun r =>
            r.map (fun v => formatPrimitive v {} true))))) ++
          [' ', '|'])) ∧
      '\r' ∉ (' ' :: ' ' :: '|' :: ' ' ::
        (List.intercalate " | ".data (List.zipWith padCell row
          (getColumnWidths headers (vals.map (fun r =>
            r.map (fun v => formatPrimitive v {} true))))) ++
          [' ', '|'])) := by
    intro row hrow
    obtain ⟨r, hr, rfl⟩ := List.mem_map.mp hrow
    have hrne : r.map (fun v => formatPrimitive v {} true) ≠ [] := by
      intro hempty
      rw [List.map_eq_nil_iff] at hempty
      subst hempty
      have h0 : headers.length = 0 := by simpa using (hlen [] hr).symm
      exact hhne (List.length_eq_zero.mp h0)
    have hcf : ∀ c ∈ r.map (fun v => formatPrimitive v {} true),
        jsTrim c = c ∧ '|' ∉ c ∧ '\n' ∉ c ∧ '\r' ∉ c := by
      intro c hc
      obtain ⟨v, hv, rfl⟩ := List.mem_map.mp hc
      obtain ⟨f1, f2, f3, f4, _⟩ :=
        formatted_safeCell_facts v (hcell r hr v hv)
      exact ⟨f1, f2, f3, f4⟩
    obtain ⟨_, _, _, t4, t5⟩ := table_line_facts
      (r.map (fun v => formatPrimitive v {} true))
      (getColumnWidths headers (vals.map (fun r =>
        r.map (fun v => formatPrimitive v {} true))))
      hrne (by rw [hRSlen _ hrow, hW])
      (fun c hc => (hcf c hc).1) (fun c hc => (hcf c hc).2.1)
      (fun c hc => (hcf c hc).2.2.1) (fun c hc => (hcf c hc).2.2.2)
    exact ⟨t4, t5⟩
  rw [decode_colon_table k _ _
    (vals.map (fun r => JVal.jobj (headers.zip r))) hk ht2
    (by rw [ht1]; rfl)
    (by
      intro l hl
      rcases List.mem_cons.mp hl with rfl | hl
      · exact ht4
      · obtain ⟨row, hrow, rfl⟩ := List.mem_map.mp hl
        exact (hrowlines row hrow).1)
    (by
      intro l hl
      rcases List.mem_cons.mp hl with rfl | hl
      · exact ht5
      · obtain ⟨row, hrow, rfl⟩ := List.mem_map.mp hl
        exact (hrowlines row hrow).2)
    (parseTable_constructed headers _ hW hhnodup hhne hhsafe vals hlen
      hcell)]

/-- Witness for the C2 amended theorem at the object
`{k: [{a: 1, b: "x"}, {a: null, b: true}]}`. -/
theorem c2_table_roundtrip_witness :
    decode (encode (JVal.jobj [("k".data,
        JVal.jarr [JVal.jobj [("a".data, JVal.jnum 1),
            ("b".data, JVal.jstr "x".data)],
          JVal.jobj [("a".data, JVal.jnull),
            ("b".data, JVal.jbool true)]])])) =
      JVal.jobj [("k".data,
        JVal.jarr [JVal.jobj [("a".data, JVal.jnum 1),
            ("b".data, JVal.jstr "x".data)],
          JVal.jobj [("a".data, JVal.jnull),
            ("b".data, JVal.jbool true)]])] := by
  have h := c2_table_roundtrip "k".data ["a".data, "b".data]
    [[JVal.jnum 1, JVal.jstr "x".data], [JVal.jnull, JVal.jbool true]]
    (by decide) (by decide) (by decide) (by decide) (by simp)
    (by decide) (by decide)
  exact h

end Mint
